import Mathlib

/-!
# Verification of RichDem's flat resolution (`src/libs/flats/flat_resolution.hpp`)

A shallow embedding of the Barnes–Lehman–Mulla flat-resolution algorithm:
edge scanning (`find_flat_edges`), flood-fill labeling (`label_this`), the two
iteration-marker BFS gradient passes (`BuildAwayGradient`,
`BuildTowardsCombinedGradient`), the driver (`resolve_flats_barnes`), and the
mask consumers (`d8_masked_FlowDir` / `d8_flow_flats`, `d8_flats_alter_dem`).

Rasters are embedded as total functions `ℤ → ℤ → ℤ` updated pointwise; the
C++ `while` loops over queues become fuelled recursions returning `Option`
(`none` models only fuel exhaustion — every theorem about a completed run is
conditioned on a `some` result, and concrete witnesses evaluate the fuelled
functions on small grids where the fuel visibly suffices).
-/

namespace RD

/-- A grid cell, the embedding of `grid_cell` (an `(x, y)` pair of `int`s).
The pair `(-1, -1)` doubles as the BFS iteration marker, as in the source. -/
structure GCell where
  x : Int
  y : Int
deriving DecidableEq, Repr

/-- A raster (the embedding of `Array2D`): a total function from coordinates
to values.  Out-of-grid reads are guarded by `inGrid` checks in the embedded
code exactly where the source checks `in_grid`. -/
def Grid : Type := Int → Int → Int

/-- Pointwise raster update: `upd g x y v` is `g` with `g(x,y) := v`. -/
def upd (g : Grid) (x y v : Int) : Grid :=
  fun a b => if a = x ∧ b = y then v else g a b

/-- Pointwise update of a one-dimensional map (the `flat_height` vector,
embedded as a total function from label to height). -/
def updF (f : Int → Int) (k v : Int) : Int → Int :=
  fun a => if a = k then v else f a

/-- The all-zero raster (`Array2D::init(0)`). -/
def zeroGrid : Grid := fun _ _ => 0

/-- `in_grid` of `Array2D`: `0 ≤ x < W` and `0 ≤ y < H`. -/
def inGrid (W H x y : Int) : Prop :=
  0 ≤ x ∧ x < W ∧ 0 ≤ y ∧ y < H

instance (W H x y : Int) : Decidable (inGrid W H x y) := by
  unfold inGrid; infer_instance

/-- Modelled from the spec: the `NO_FLOW` sentinel of the flow-direction
raster.  Its defining header (`d8_flowdirs.hpp`) is not among the given
sources; the spec says it is a reserved value distinct from the direction
indices `1..8`, and the guard `flowdir>0` in `d8_masked_FlowDir` together with
the neighbourhood diagram (`//234 //105 //876`, centre `0`) fixes it as `0`. -/
def NO_FLOW : Int := 0

/-- Modelled from the spec: the x-offsets `dx[1..8]` of the eight neighbours.
The defining header is not among the given sources; the table is fixed by the
diagram `//234 //105 //876` at the top of `flat_resolution.hpp` (x grows
rightward). -/
def dx : Nat → Int
  | 1 => -1
  | 2 => -1
  | 3 => 0
  | 4 => 1
  | 5 => 1
  | 6 => 1
  | 7 => 0
  | 8 => -1
  | _ => 0

/-- Modelled from the spec: the y-offsets `dy[1..8]` of the eight neighbours
(y grows downward), fixed by the diagram `//234 //105 //876`. -/
def dy : Nat → Int
  | 1 => 0
  | 2 => -1
  | 3 => -1
  | 4 => -1
  | 5 => 0
  | 6 => 1
  | 7 => 1
  | 8 => 1
  | _ => 0

/-- The neighbour indices `1..8` in loop order (`for(int n=1;n<=8;n++)`). -/
def dirList : List Nat := [1, 2, 3, 4, 5, 6, 7, 8]

/-- All in-grid cells in the scan order of the source's double loops
(`x` outer from `0`, `y` inner from `0`). -/
def gridCells (W H : Int) : List GCell :=
  (List.range W.toNat).flatMap fun x =>
    (List.range H.toNat).map fun y => ⟨Int.ofNat x, Int.ofNat y⟩

/-! ## `find_flat_edges` -/

/-- The neighbour scan of one cell in `find_flat_edges` (lines 398–412):
walk `n = 1..8`, skip out-of-grid and NoData neighbours, classify the cell as
a low edge (`some false`) or high edge (`some true`) at the first qualifying
neighbour (the `break`), else `none`. -/
def classifyCell (F E : Grid) (noDataF W H x y : Int) : List Nat → Option Bool
  | [] => none
  | n :: ns =>
    if ¬ inGrid W H (x + dx n) (y + dy n) then
      classifyCell F E noDataF W H x y ns
    else if F (x + dx n) (y + dy n) = noDataF then
      classifyCell F E noDataF W H x y ns
    else if F x y ≠ NO_FLOW ∧ F (x + dx n) (y + dy n) = NO_FLOW ∧
        E (x + dx n) (y + dy n) = E x y then
      some false
    else if F x y = NO_FLOW ∧ E x y < E (x + dx n) (y + dy n) then
      some true
    else
      classifyCell F E noDataF W H x y ns

/-- The per-cell action of `find_flat_edges`: skip flowdir-NoData cells, and
append each classified cell to the low-edge or high-edge queue. -/
def edgeStep (F E : Grid) (noDataF W H : Int) (acc : List GCell × List GCell)
    (c : GCell) : List GCell × List GCell :=
  if F c.x c.y = noDataF then acc
  else
    match classifyCell F E noDataF W H c.x c.y dirList with
    | some false => (acc.1 ++ [c], acc.2)
    | some true => (acc.1, acc.2 ++ [c])
    | none => acc

/-- `find_flat_edges` (lines 380–417): scan all cells in order, appending
classified cells to the queues.  Returns `(low_edges, high_edges)`. -/
def find_flat_edges (F E : Grid) (noDataF W H : Int) : List GCell × List GCell :=
  (gridCells W H).foldl (edgeStep F E noDataF W H) ([], [])

/-! ## `label_this` -/

/-- The in-grid 8-neighbours of a cell in order `n = 1..8` (the flood-fill
push of `label_this`, which checks only `in_grid`). -/
def allNbrsIn (W H x y : Int) : List GCell :=
  dirList.filterMap fun n =>
    if inGrid W H (x + dx n) (y + dy n) then some ⟨x + dx n, y + dy n⟩ else none

/-- The flood-fill queue loop of `label_this` (lines 342–353): pop a cell,
skip it if its elevation differs from the target or it is already labeled,
otherwise label it and push all in-grid neighbours.  `none` = out of fuel. -/
def labelThisLoop (E : Grid) (W H target label : Int) :
    Nat → Grid → List GCell → Option Grid
  | _, labels, [] => some labels
  | 0, _, _ :: _ => none
  | fuel + 1, labels, c :: rest =>
    if E c.x c.y ≠ target then
      labelThisLoop E W H target label fuel labels rest
    else if 0 < labels c.x c.y then
      labelThisLoop E W H target label fuel labels rest
    else
      labelThisLoop E W H target label fuel (upd labels c.x c.y label)
        (rest ++ allNbrsIn W H c.x c.y)

/-- `label_this` (lines 330–354): flood fill from `(x0, y0)` with the target
elevation `E(x0, y0)`. -/
def label_this (E : Grid) (W H : Int) (fuel : Nat) (x0 y0 label : Int)
    (labels : Grid) : Option Grid :=
  labelThisLoop E W H (E x0 y0) label fuel labels [⟨x0, y0⟩]

/-- The labeling loop of `resolve_flats_barnes` (lines 484–487): walk the
low-edge queue; for each seed still labeled `0`, flood fill with the current
`group_number` and increment it.  Returns the labels and final `group_number`. -/
def labelFlats (E : Grid) (W H : Int) (fuel : Nat) :
    List GCell → Grid → Int → Option (Grid × Int)
  | [], labels, g => some (labels, g)
  | s :: rest, labels, g =>
    if labels s.x s.y = 0 then
      match label_this E W H fuel s.x s.y g labels with
      | none => none
      | some labels1 => labelFlats E W H fuel rest labels1 (g + 1)
    else
      labelFlats E W H fuel rest labels g

/-! ## The gradient BFS loops -/

/-- The neighbour pushes of one BFS assignment (lines 185–192 and 286–293):
in-grid neighbours with the same label as `(x,y)` and flowdir `NO_FLOW`,
in order `n = 1..8`. -/
def pushList (F L : Grid) (W H x y : Int) : List GCell :=
  dirList.filterMap fun n =>
    if inGrid W H (x + dx n) (y + dy n) ∧
        L (x + dx n) (y + dy n) = L x y ∧ F (x + dx n) (y + dy n) = NO_FLOW then
      some ⟨x + dx n, y + dy n⟩
    else none

/-- The shared iteration-marker BFS loop of `BuildAwayGradient` and
`BuildTowardsCombinedGradient` (lines 169–193 and 267–294), which differ only
in the assignment expression (`assign`, reading the `flat_height` map, the
wavefront counter `loops`, the label and the old mask value) and in what an
assignment does to the `flat_height` map (`fhUpd`: the away pass writes
`flat_height[label] := loops`, the toward pass leaves it unchanged).
The loop runs `while (edges.size() != 1)` — the queue always holds exactly one
marker, so it ends when only the marker is left.  `none` = out of fuel (or the
never-reached empty-queue state). -/
def gradLoop (F L : Grid) (W H : Int) (assign : (Int → Int) → Int → Int → Int → Int)
    (fhUpd : (Int → Int) → Int → Int → (Int → Int)) :
    Nat → Grid → (Int → Int) → List GCell → Int → Option (Grid × (Int → Int))
  | _, mask, fh, [_], _ => some (mask, fh)
  | fuel + 1, mask, fh, c :: d :: rest, loops =>
    if c.x = -1 then
      gradLoop F L W H assign fhUpd fuel mask fh ((d :: rest) ++ [⟨-1, -1⟩])
        (loops + 1)
    else if 0 < mask c.x c.y then
      gradLoop F L W H assign fhUpd fuel mask fh (d :: rest) loops
    else
      gradLoop F L W H assign fhUpd fuel
        (upd mask c.x c.y (assign fh loops (L c.x c.y) (mask c.x c.y)))
        (fhUpd fh (L c.x c.y) loops)
        ((d :: rest) ++ pushList F L W H c.x c.y) loops
  | _, _, _, [], _ => none
  | 0, _, _, _ :: _ :: _, _ => none

/-- The assignment of `BuildAwayGradient` (line 183): `flat_mask(x,y) = loops`. -/
def awayAssign : (Int → Int) → Int → Int → Int → Int :=
  fun _ loops _ _ => loops

/-- The assignment of `BuildTowardsCombinedGradient` (lines 281–284):
`(flat_height[label] + m) + 2·loops` when the old value `m` is nonzero,
else `2·loops`. -/
def towardAssign : (Int → Int) → Int → Int → Int → Int :=
  fun fh loops lab m => if m ≠ 0 then (fh lab + m) + 2 * loops else 2 * loops

/-- The `flat_height` effect of an away-gradient assignment (line 184):
`flat_height[label] := loops`. -/
def awayFhUpd : (Int → Int) → Int → Int → (Int → Int) :=
  fun fh lab loops => updF fh lab loops

/-- The `flat_height` effect of a toward-gradient assignment: none
(`BuildTowardsCombinedGradient` only reads `flat_height`). -/
def towardFhUpd : (Int → Int) → Int → Int → (Int → Int) :=
  fun fh _ _ => fh

/-- `BuildAwayGradient` (lines 151–197): marker-queue BFS from the (pruned)
high-edge queue with `loops` starting at `1`, writing `flat_height` at each
assignment. -/
def BuildAwayGradient (F L : Grid) (W H : Int) (fuel : Nat) (mask : Grid)
    (fh : Int → Int) (edges : List GCell) : Option (Grid × (Int → Int)) :=
  gradLoop F L W H awayAssign awayFhUpd fuel mask fh (edges ++ [⟨-1, -1⟩]) 1

/-- `BuildTowardsCombinedGradient` (lines 241–298): negate the whole mask
(line 262), then marker-queue BFS from the low-edge queue with `loops`
starting at `1`, leaving `flat_height` unchanged. -/
def BuildTowardsCombinedGradient (F L : Grid) (W H : Int) (fuel : Nat)
    (mask : Grid) (fh : Int → Int) (edges : List GCell) :
    Option (Grid × (Int → Int)) :=
  gradLoop F L W H towardAssign towardFhUpd fuel (fun x y => -(mask x y)) fh
    (edges ++ [⟨-1, -1⟩]) 1

/-! ## The driver `resolve_flats_barnes` -/

/-- The outputs of `resolve_flats_barnes`: the mask and label rasters it fills
(with the mask's NoData sentinel, set to `-1` at line 470), plus the
`flat_height` vector and final `group_number` (locals of the driver, exposed
here so theorems can speak about them). -/
structure FlatResult where
  flat_mask : Grid
  labels : Grid
  flat_height : Int → Int
  group_number : Int
  maskNoData : Int

/-- The low-edge queue produced by the driver's `find_flat_edges` call. -/
def lowEdges (F E : Grid) (noDataF W H : Int) : List GCell :=
  (find_flat_edges F E noDataF W H).1

/-- The high-edge queue produced by the driver's `find_flat_edges` call. -/
def highEdges (F E : Grid) (noDataF W H : Int) : List GCell :=
  (find_flat_edges F E noDataF W H).2

/-- The labeling phase of the driver (lines 484–487) run on the low-edge
queue, starting from all-zero labels and `group_number = 1`. -/
def labelStage (F E : Grid) (noDataF W H : Int) (fuel : Nat) :
    Option (Grid × Int) :=
  labelFlats E W H fuel (lowEdges F E noDataF W H) zeroGrid 1

/-- The away-gradient phase of the driver: labeling, then pruning the
high-edge queue to labeled cells (lines 493–501), then `BuildAwayGradient` on
the all-zero mask and the all-zero `flat_height` vector of length
`group_number` (line 509).  Returns `(labels, away mask, group_number,
flat_height)`. -/
def awayStage (F E : Grid) (noDataF W H : Int) (fuel : Nat) :
    Option (Grid × Grid × Int × (Int → Int)) :=
  (labelStage F E noDataF W H fuel).bind fun p =>
    (BuildAwayGradient F p.1 W H fuel zeroGrid (fun _ => 0)
        ((highEdges F E noDataF W H).filter fun c => p.1 c.x c.y ≠ 0)).map
      fun q => (p.1, q.1, p.2, q.2)

/-- `resolve_flats_barnes` (lines 446–520): initialize labels and mask to
zero with mask NoData `-1`; scan for edges; if the low-edge queue is empty,
return immediately (lines 475–481); otherwise label the flats, prune the
high-edge queue, and run the two gradient passes.  `none` = fuel exhaustion in
one of the queue loops. -/
def resolve_flats_barnes (E F : Grid) (noDataF W H : Int) (fuel : Nat) :
    Option FlatResult :=
  if lowEdges F E noDataF W H = [] then
    some ⟨zeroGrid, zeroGrid, fun _ => 0, 1, -1⟩
  else
    (awayStage F E noDataF W H fuel).bind fun p =>
      (BuildTowardsCombinedGradient F p.1 W H fuel p.2.1 p.2.2.2
          (lowEdges F E noDataF W H)).map
        fun q => ⟨q.1, p.1, q.2, p.2.2.1, -1⟩

/-! ## `d8_masked_FlowDir` and `d8_flow_flats` -/

/-- One neighbour step of `d8_masked_FlowDir` (lines 51–60).  The state is
`(minimum_elevation, flowdir)`; the step skips neighbours in a different flat
and updates the state exactly when the condition at line 56 holds. -/
def flowDirStep (flat_mask labels : Grid) (x y : Int) (st : Int × Int)
    (n : Nat) : Int × Int :=
  if labels (x + dx n) (y + dy n) ≠ labels x y then st
  else if flat_mask (x + dx n) (y + dy n) < st.1 ∨
      (flat_mask (x + dx n) (y + dy n) = st.1 ∧ 0 < st.2 ∧ st.2 % 2 = 0 ∧
        (n : Int) % 2 = 1) then
    (flat_mask (x + dx n) (y + dy n), (n : Int))
  else st

/-- `d8_masked_FlowDir` (lines 40–63): fold the neighbour step over
`n = 1..8` from the initial state `(flat_mask(x,y), NO_FLOW)` and return the
resulting flow direction. -/
def d8_masked_FlowDir (flat_mask labels : Grid) (x y : Int) : Int :=
  (dirList.foldl (flowDirStep flat_mask labels x y) (flat_mask x y, NO_FLOW)).2

/-- `d8_flow_flats` (lines 94–114): on every interior cell whose mask is not
the mask's NoData value and whose flow direction is `NO_FLOW`, assign
`d8_masked_FlowDir`; all other cells keep their old direction. -/
def d8_flow_flats (flat_mask labels flowdirs : Grid) (maskNoData W H : Int) :
    Grid :=
  fun x y =>
    if 1 ≤ x ∧ x < W - 1 ∧ 1 ≤ y ∧ y < H - 1 ∧
        flat_mask x y ≠ maskNoData ∧ flowdirs x y = NO_FLOW then
      d8_masked_FlowDir flat_mask labels x y
    else flowdirs x y

/-! ## `d8_flats_alter_dem` — the perturbation step at the failing input

`d8_flats_alter_dem` (lines 548–585) raises each labeled cell's elevation by
`flat_mask(x,y)` applications of `nextafterf(·, +∞)` (line 571) — the
**32-bit float** next-after, for every elevation type `U`; the source's own
TODO comment at lines 568–569 records that an overloaded (type-correct)
version should be used instead.  We embed the step exactly at the concrete
failing input `E(x,y) = 1.0` with `U = double`: `1.0` is exactly
representable at both precisions, and for values in `[1, 2)` one upward step
is `+2⁻²³` at float precision and `+2⁻⁵²` at double precision. -/

/-- One `nextafterf(e, +INFINITY)` step for `e ∈ [1, 2)`: float (24-bit
significand) spacing `2⁻²³`.  This is the step the source applies for every
elevation type `U` (line 571). -/
def nextafterf_up (e : ℚ) : ℚ := e + 1 / 2 ^ 23

/-- Modelled from the spec: one "next representable upward value" step at
double precision (53-bit significand) for `e ∈ [1, 2)`: spacing `2⁻⁵²`.  The
spec requires this step when the elevation type is double. -/
def nextafter_double_up (e : ℚ) : ℚ := e + 1 / 2 ^ 52

/-- The elevation bump `d8_flats_alter_dem` applies to a double-typed cell
with mask value `m` whose elevation stays in `[1, 2)`: `m` iterations of the
code's `nextafterf` step (line 570–571). -/
def alter_dem_bump_double (m : Nat) (e : ℚ) : ℚ := nextafterf_up^[m] e

/-- Modelled from the spec: the bump the spec prescribes for a double-typed
cell — `m` iterations of the double-precision next-after step. -/
def spec_bump_double (m : Nat) (e : ℚ) : ℚ := nextafter_double_up^[m] e

/-! ## Concrete test rasters -/

/-- A raster given by a row-major list of rows (row `y`, column `x`);
out-of-range reads give `0`. -/
def listGrid (rows : List (List Int)) : Grid := fun x y =>
  if 0 ≤ x ∧ 0 ≤ y then (rows.getD y.toNat []).getD x.toNat 0 else 0

/-- Scenario S2 of the spec: a 5×5 DEM with a 3×3 flat of elevation 5 inside
a rim of 9s, drained through the outlet cell `(4,2)` of elevation 1. -/
def S2E : Grid :=
  listGrid [[9, 9, 9, 9, 9], [9, 5, 5, 5, 9], [9, 5, 5, 5, 1], [9, 5, 5, 5, 9], [9, 9, 9, 9, 9]]

/-- Steepest-descent flow directions for `S2E`: `NO_FLOW` on the six flat
cells with no lower neighbour and on the pit cell `(4,2)`; every other cell
drains (the exact direction index is irrelevant to the algorithms, which only
compare against `NO_FLOW` and the NoData sentinel). -/
def S2F : Grid := fun x y =>
  if (x = 1 ∧ y = 1) ∨ (x = 2 ∧ y = 1) ∨ (x = 1 ∧ y = 2) ∨ (x = 2 ∧ y = 2) ∨
      (x = 1 ∧ y = 3) ∨ (x = 2 ∧ y = 3) ∨ (x = 4 ∧ y = 2) then NO_FLOW else 1

/-- Scenario S1 flavour: a flow-direction raster with flow everywhere, so
`find_flat_edges` finds no flats at all. -/
def S1F : Grid := fun _ _ => 1

/-- Elevations for the no-flat scenario (values are irrelevant since no cell
is `NO_FLOW`). -/
def S1E : Grid := fun _ _ => 0

/-- Scenario S5 of the spec: the mask around the centre cell `(1,1)` of a 3×3
raster; the neighbours at index 2 (diagonal `(0,0)`) and index 3 (cardinal
`(1,0)`) have the equal minimal mask 3, the centre has 5, all others 9. -/
def S5mask : Grid := listGrid [[3, 3, 9], [9, 5, 9], [9, 9, 9]]

/-- Labels for scenario S5: one flat covering everything. -/
def S5labels : Grid := fun _ _ => 1

/-- The number of distinct positive label values on a `W×H` raster. -/
def distinctLabelCount (L : Grid) (W H : Int) : Nat :=
  ((((gridCells W H).map fun c => L c.x c.y).filter fun v => 0 < v).dedup).length

/-! ## Reachability notions used by the theorems -/

/-- Reachability in the BFS expansion graph of the gradient passes: a cell is
reachable if it is a seed, or is pushed (in grid, same label, `NO_FLOW`) from
a reachable cell. -/
inductive Reaches (F L : Grid) (W H : Int) (S : List GCell) : GCell → Prop
  | base (c : GCell) (h : c ∈ S) : Reaches F L W H S c
  | step (c d : GCell) (hc : Reaches F L W H S c)
      (hd : d ∈ pushList F L W H c.x c.y) : Reaches F L W H S d

/-- 8-connected paths all of whose cells satisfy `P` (used for the flood
fill's equal-elevation components). -/
inductive NPath (W H : Int) (P : GCell → Prop) : GCell → GCell → Prop
  | refl (c : GCell) (h : P c) : NPath W H P c c
  | tail (a b c : GCell) (hab : NPath W H P a b)
      (hbc : c ∈ allNbrsIn W H b.x b.y) (hc : P c) : NPath W H P a c

/-- `AwayReach F L W H S n c`: cell `c` is reachable from the seed set `S`
within `n` BFS expansion steps (`n` 8-neighbour hops through in-grid,
same-label, `NO_FLOW` cells). -/
def AwayReach (F L : Grid) (W H : Int) (S : List GCell) : Nat → GCell → Prop
  | 0, c => c ∈ S
  | n + 1, c => AwayReach F L W H S n c ∨
      ∃ p, AwayReach F L W H S n p ∧ c ∈ pushList F L W H p.x p.y

/-- The label-dependent part of a toward-gradient assignment: what is added
to `2·loops` when assigning a cell whose pre-pass (sign-flipped) mask value
was `m0`. -/
def tdelta (fh : Int → Int) (m0 L : Grid) (c : GCell) : Int :=
  if m0 c.x c.y ≠ 0 then fh (L c.x c.y) + m0 c.x c.y else 0

/-- Provenance of an away-gradient value (relative to the final mask `A`):
either a seed, which carries value `1`, or a cell pushed from a neighbour
whose value is exactly one less. -/
def AwayProv (F L : Grid) (W H : Int) (S0 : List GCell) (A : Grid)
    (c : GCell) : Prop :=
  (c ∈ S0 ∧ A c.x c.y = 1) ∨
  (∃ n : GCell, c ∈ pushList F L W H n.x n.y ∧ 0 < A n.x n.y ∧
    A c.x c.y = A n.x n.y + 1)

/-- Intermediate provenance used in the away-gradient zone induction: a cell
about to be assigned at wavefront `v` is either a seed (then `v = 1`) or was
pushed by a cell of final value `v − 1`. -/
def AwayPre (F L : Grid) (W H : Int) (S0 : List GCell) (A : Grid) (v : Int)
    (c : GCell) : Prop :=
  (c ∈ S0 ∧ v = 1) ∨
  (∃ n : GCell, c ∈ pushList F L W H n.x n.y ∧ 0 < A n.x n.y ∧
    A n.x n.y + 1 = v)

/-- Provenance of a toward-gradient value (relative to the final mask `M`,
the pre-pass mask `m0`, and the away heights `fh`): either a seed, or a cell
pushed from a neighbour `n` with `M(c) = M(n) − δ(n) + 2 + δ(c)`, where `δ`
is `tdelta` (so the wavefront depth of `c` is one more than that of `n`). -/
def TowProv (F L : Grid) (W H : Int) (S0 : List GCell) (fh : Int → Int)
    (m0 M : Grid) (c : GCell) : Prop :=
  c ∈ S0 ∨
  (∃ n : GCell, c ∈ pushList F L W H n.x n.y ∧ 0 < M n.x n.y ∧
    M c.x c.y = M n.x n.y - tdelta fh m0 L n + 2 + tdelta fh m0 L c)

/-- Intermediate provenance used in the toward-gradient zone induction: a
cell about to be assigned at wavefront `r` is either a seed or was pushed by
a cell assigned at wavefront `r − 1`. -/
def TowPre (F L : Grid) (W H : Int) (S0 : List GCell) (fh : Int → Int)
    (m0 M : Grid) (r : Int) (c : GCell) : Prop :=
  c ∈ S0 ∨
  (∃ n : GCell, c ∈ pushList F L W H n.x n.y ∧ 0 < M n.x n.y ∧
    M n.x n.y = 2 * (r - 1) + tdelta fh m0 L n)

/-! ## Helper lemmas: pointwise update -/

theorem upd_self (g : Grid) (x y v : Int) : upd g x y v x y = v := by
  simp [upd]

theorem upd_ne (g : Grid) (x y v a b : Int) (h : ¬(a = x ∧ b = y)) :
    upd g x y v a b = g a b := by
  simp [upd, h]

theorem updF_self (f : Int → Int) (k v : Int) : updF f k v k = v := by
  simp [updF]

theorem updF_ne (f : Int → Int) (k v a : Int) (h : a ≠ k) :
    updF f k v a = f a := by
  simp [updF, h]

/-! ## Helper lemmas: grid cells, directions, pushes -/

theorem mem_gridCells (W H : Int) (c : GCell) :
    c ∈ gridCells W H ↔ inGrid W H c.x c.y := by
  unfold gridCells inGrid
  constructor
  · intro h
    rw [List.mem_flatMap] at h
    obtain ⟨x, hx, hc⟩ := h
    rw [List.mem_map] at hc
    obtain ⟨y, hy, rfl⟩ := hc
    rw [List.mem_range] at hx hy
    simp only [Int.ofNat_eq_coe]
    omega
  · intro h
    rw [List.mem_flatMap]
    refine ⟨c.x.toNat, by rw [List.mem_range]; omega, ?_⟩
    rw [List.mem_map]
    refine ⟨c.y.toNat, by rw [List.mem_range]; omega, ?_⟩
    cases c with
    | mk cx cy =>
      simp only [GCell.mk.injEq, Int.ofNat_eq_coe]
      dsimp only at h
      obtain ⟨h1, h2, h3, h4⟩ := h
      constructor <;> omega

/-- Every direction has an opposite direction in the table. -/
theorem dir_symm : ∀ n ∈ dirList, ∃ k ∈ dirList, dx k = -(dx n) ∧ dy k = -(dy n) := by
  decide

theorem mem_pushList (F L : Grid) (W H x y : Int) (d : GCell) :
    d ∈ pushList F L W H x y ↔
      ∃ n ∈ dirList, d = ⟨x + dx n, y + dy n⟩ ∧
        inGrid W H (x + dx n) (y + dy n) ∧ L (x + dx n) (y + dy n) = L x y ∧
        F (x + dx n) (y + dy n) = NO_FLOW := by
  unfold pushList
  rw [List.mem_filterMap]
  constructor
  · rintro ⟨n, hn, hsome⟩
    split at hsome
    · next hcond =>
      rw [Option.some.injEq] at hsome
      exact ⟨n, hn, hsome.symm, hcond⟩
    · exact absurd hsome (by simp)
  · rintro ⟨n, hn, rfl, h1, h2, h3⟩
    exact ⟨n, hn, by rw [if_pos ⟨h1, h2, h3⟩]⟩

theorem mem_allNbrsIn (W H x y : Int) (d : GCell) :
    d ∈ allNbrsIn W H x y ↔
      ∃ n ∈ dirList, d = ⟨x + dx n, y + dy n⟩ ∧
        inGrid W H (x + dx n) (y + dy n) := by
  unfold allNbrsIn
  rw [List.mem_filterMap]
  constructor
  · rintro ⟨n, hn, hsome⟩
    split at hsome
    · next hcond =>
      rw [Option.some.injEq] at hsome
      exact ⟨n, hn, hsome.symm, hcond⟩
    · exact absurd hsome (by simp)
  · rintro ⟨n, hn, rfl, h1⟩
    exact ⟨n, hn, by rw [if_pos h1]⟩

/-! ## Helper lemmas: `find_flat_edges` -/

theorem classifyCell_false_elim (F E : Grid) (noDataF W H x y : Int) :
    ∀ ns : List Nat, classifyCell F E noDataF W H x y ns = some false →
      F x y ≠ NO_FLOW := by
  intro ns
  induction ns with
  | nil => intro h; exact absurd h (by simp [classifyCell])
  | cons m ms ih =>
    intro h
    rw [classifyCell] at h
    by_cases h1 : ¬ inGrid W H (x + dx m) (y + dy m)
    · rw [if_pos h1] at h; exact ih h
    · rw [if_neg h1] at h
      by_cases h2 : F (x + dx m) (y + dy m) = noDataF
      · rw [if_pos h2] at h; exact ih h
      · rw [if_neg h2] at h
        by_cases h3 : F x y ≠ NO_FLOW ∧ F (x + dx m) (y + dy m) = NO_FLOW ∧
            E (x + dx m) (y + dy m) = E x y
        · exact h3.1
        · rw [if_neg h3] at h
          by_cases h4 : F x y = NO_FLOW ∧ E x y < E (x + dx m) (y + dy m)
          · rw [if_pos h4] at h; exact absurd h (by simp)
          · rw [if_neg h4] at h; exact ih h

theorem classifyCell_true_elim (F E : Grid) (noDataF W H x y : Int) :
    ∀ ns : List Nat, classifyCell F E noDataF W H x y ns = some true →
      F x y = NO_FLOW := by
  intro ns
  induction ns with
  | nil => intro h; exact absurd h (by simp [classifyCell])
  | cons m ms ih =>
    intro h
    rw [classifyCell] at h
    by_cases h1 : ¬ inGrid W H (x + dx m) (y + dy m)
    · rw [if_pos h1] at h; exact ih h
    · rw [if_neg h1] at h
      by_cases h2 : F (x + dx m) (y + dy m) = noDataF
      · rw [if_pos h2] at h; exact ih h
      · rw [if_neg h2] at h
        by_cases h3 : F x y ≠ NO_FLOW ∧ F (x + dx m) (y + dy m) = NO_FLOW ∧
            E (x + dx m) (y + dy m) = E x y
        · rw [if_pos h3] at h; exact absurd h (by simp)
        · rw [if_neg h3] at h
          by_cases h4 : F x y = NO_FLOW ∧ E x y < E (x + dx m) (y + dy m)
          · exact h4.1
          · rw [if_neg h4] at h; exact ih h

/-- If some neighbour qualifies as a low-edge witness and the cell has a flow
direction, the classification scan returns `some false` (low edge). -/
theorem classifyCell_false_intro (F E : Grid) (noDataF W H x y : Int)
    (hc : F x y ≠ NO_FLOW) :
    ∀ ns : List Nat,
      (∃ n ∈ ns, inGrid W H (x + dx n) (y + dy n) ∧
        F (x + dx n) (y + dy n) ≠ noDataF ∧
        F (x + dx n) (y + dy n) = NO_FLOW ∧
        E (x + dx n) (y + dy n) = E x y) →
      classifyCell F E noDataF W H x y ns = some false := by
  intro ns
  induction ns with
  | nil => rintro ⟨n, hn, _⟩; exact absurd hn (by simp)
  | cons m ms ih =>
    rintro ⟨n, hn, hg, hnd, hnf, hE⟩
    rw [classifyCell]
    by_cases h1 : ¬ inGrid W H (x + dx m) (y + dy m)
    · rw [if_pos h1]
      refine ih ⟨n, ?_, hg, hnd, hnf, hE⟩
      rcases List.mem_cons.mp hn with rfl | hmem
      · exact absurd hg h1
      · exact hmem
    · rw [if_neg h1]
      by_cases h2 : F (x + dx m) (y + dy m) = noDataF
      · rw [if_pos h2]
        refine ih ⟨n, ?_, hg, hnd, hnf, hE⟩
        rcases List.mem_cons.mp hn with rfl | hmem
        · exact absurd h2 hnd
        · exact hmem
      · rw [if_neg h2]
        by_cases h3 : F x y ≠ NO_FLOW ∧ F (x + dx m) (y + dy m) = NO_FLOW ∧
            E (x + dx m) (y + dy m) = E x y
        · rw [if_pos h3]
        · rw [if_neg h3, if_neg (by rintro ⟨hNF, _⟩; exact hc hNF)]
          refine ih ⟨n, ?_, hg, hnd, hnf, hE⟩
          rcases List.mem_cons.mp hn with rfl | hmem
          · exact absurd ⟨hc, hnf, hE⟩ h3
          · exact hmem

theorem edges_fold_mono (F E : Grid) (noDataF W H : Int) (c : GCell) :
    ∀ (l : List GCell) (acc : List GCell × List GCell),
      (c ∈ acc.1 → c ∈ (l.foldl (edgeStep F E noDataF W H) acc).1) ∧
      (c ∈ acc.2 → c ∈ (l.foldl (edgeStep F E noDataF W H) acc).2) := by
  intro l
  induction l with
  | nil => intro acc; exact ⟨id, id⟩
  | cons a l ih =>
    intro acc
    rw [List.foldl_cons]
    constructor
    · intro h
      refine (ih _).1 ?_
      unfold edgeStep
      split
      · exact h
      · split <;> simp [h]
    · intro h
      refine (ih _).2 ?_
      unfold edgeStep
      split
      · exact h
      · split <;> simp [h]

theorem edges_fold_elim (F E : Grid) (noDataF W H : Int) (c : GCell) :
    ∀ (l : List GCell) (acc : List GCell × List GCell),
      (c ∈ (l.foldl (edgeStep F E noDataF W H) acc).1 →
        c ∈ acc.1 ∨ (c ∈ l ∧ F c.x c.y ≠ noDataF ∧
          classifyCell F E noDataF W H c.x c.y dirList = some false)) ∧
      (c ∈ (l.foldl (edgeStep F E noDataF W H) acc).2 →
        c ∈ acc.2 ∨ (c ∈ l ∧ F c.x c.y ≠ noDataF ∧
          classifyCell F E noDataF W H c.x c.y dirList = some true)) := by
  intro l
  induction l with
  | nil => intro acc; exact ⟨fun h => Or.inl h, fun h => Or.inl h⟩
  | cons a l ih =>
    intro acc
    rw [List.foldl_cons]
    constructor
    · intro h
      rcases (ih _).1 h with h1 | ⟨hmem, hnd, hcl⟩
      · unfold edgeStep at h1
        split at h1
        · exact Or.inl h1
        · next hnd =>
          split at h1
          · next hcl =>
            rcases List.mem_append.mp h1 with h2 | h2
            · exact Or.inl h2
            · rw [List.mem_singleton] at h2
              subst h2
              exact Or.inr ⟨List.mem_cons_self _ _, hnd, hcl⟩
          · exact Or.inl h1
          · exact Or.inl h1
      · exact Or.inr ⟨List.mem_cons_of_mem _ hmem, hnd, hcl⟩
    · intro h
      rcases (ih _).2 h with h1 | ⟨hmem, hnd, hcl⟩
      · unfold edgeStep at h1
        split at h1
        · exact Or.inl h1
        · next hnd =>
          split at h1
          · exact Or.inl h1
          · next hcl =>
            rcases List.mem_append.mp h1 with h2 | h2
            · exact Or.inl h2
            · rw [List.mem_singleton] at h2
              subst h2
              exact Or.inr ⟨List.mem_cons_self _ _, hnd, hcl⟩
          · exact Or.inl h1
      · exact Or.inr ⟨List.mem_cons_of_mem _ hmem, hnd, hcl⟩

theorem edges_fold_intro_low (F E : Grid) (noDataF W H : Int) (c : GCell) :
    ∀ (l : List GCell) (acc : List GCell × List GCell), c ∈ l →
      F c.x c.y ≠ noDataF →
      classifyCell F E noDataF W H c.x c.y dirList = some false →
      c ∈ (l.foldl (edgeStep F E noDataF W H) acc).1 := by
  intro l
  induction l with
  | nil => intro acc h; exact absurd h (by simp)
  | cons a l ih =>
    intro acc hmem hnd hcl
    rw [List.foldl_cons]
    rcases List.mem_cons.mp hmem with rfl | hmem
    · refine (edges_fold_mono F E noDataF W H c l _).1 ?_
      unfold edgeStep
      rw [if_neg hnd, hcl]
      simp
    · exact ih _ hmem hnd hcl

/-- Members of the low-edge queue are in-grid cells with a flow direction
(neither `NO_FLOW` nor NoData). -/
theorem mem_lowEdges_elim (F E : Grid) (noDataF W H : Int) (c : GCell)
    (h : c ∈ lowEdges F E noDataF W H) :
    inGrid W H c.x c.y ∧ F c.x c.y ≠ noDataF ∧ F c.x c.y ≠ NO_FLOW := by
  unfold lowEdges find_flat_edges at h
  rcases (edges_fold_elim F E noDataF W H c _ _).1 h with h1 | ⟨hmem, hnd, hcl⟩
  · exact absurd h1 (by simp)
  · exact ⟨(mem_gridCells W H c).mp hmem, hnd,
      classifyCell_false_elim F E noDataF W H c.x c.y _ hcl⟩

/-- Members of the high-edge queue are in-grid `NO_FLOW` cells. -/
theorem mem_highEdges_elim (F E : Grid) (noDataF W H : Int) (c : GCell)
    (h : c ∈ highEdges F E noDataF W H) :
    inGrid W H c.x c.y ∧ F c.x c.y ≠ noDataF ∧ F c.x c.y = NO_FLOW := by
  unfold highEdges find_flat_edges at h
  rcases (edges_fold_elim F E noDataF W H c _ _).2 h with h1 | ⟨hmem, hnd, hcl⟩
  · exact absurd h1 (by simp)
  · exact ⟨(mem_gridCells W H c).mp hmem, hnd,
      classifyCell_true_elim F E noDataF W H c.x c.y _ hcl⟩

/-- An in-grid cell with a flow direction and a qualifying `NO_FLOW`
equal-elevation neighbour is scanned into the low-edge queue. -/
theorem mem_lowEdges_intro (F E : Grid) (noDataF W H : Int) (c : GCell)
    (hin : inGrid W H c.x c.y) (hnd : F c.x c.y ≠ noDataF)
    (hflow : F c.x c.y ≠ NO_FLOW)
    (hex : ∃ n ∈ dirList, inGrid W H (c.x + dx n) (c.y + dy n) ∧
      F (c.x + dx n) (c.y + dy n) ≠ noDataF ∧
      F (c.x + dx n) (c.y + dy n) = NO_FLOW ∧
      E (c.x + dx n) (c.y + dy n) = E c.x c.y) :
    c ∈ lowEdges F E noDataF W H := by
  unfold lowEdges find_flat_edges
  exact edges_fold_intro_low F E noDataF W H c _ _
    ((mem_gridCells W H c).mpr hin) hnd
    (classifyCell_false_intro F E noDataF W H c.x c.y hflow _ hex)

/-! ## Helper lemmas: the generic gradient loop -/

/-- Cells with a positive mask value are never rewritten by a gradient loop
(the `flat_mask(x,y)>0` discard at lines 180 and 278). -/
theorem gradLoop_preserve_pos (F L : Grid) (W H : Int)
    (assign : (Int → Int) → Int → Int → Int → Int)
    (fhUpd : (Int → Int) → Int → Int → (Int → Int)) :
    ∀ (fuel : Nat) (mask : Grid) (fh : Int → Int) (q : List GCell)
      (loops : Int) (res : Grid × (Int → Int)),
      gradLoop F L W H assign fhUpd fuel mask fh q loops = some res →
      ∀ x y, 0 < mask x y → res.1 x y = mask x y := by
  intro fuel
  induction fuel with
  | zero =>
    intro mask fh q loops res h x y hpos
    cases q with
    | nil => exact absurd h (by simp [gradLoop])
    | cons c q1 =>
      cases q1 with
      | nil => simp only [gradLoop, Option.some.injEq] at h; rw [← h]
      | cons d rest => exact absurd h (by simp [gradLoop])
  | succ n ih =>
    intro mask fh q loops res h x y hpos
    cases q with
    | nil => exact absurd h (by simp [gradLoop])
    | cons c q1 =>
      cases q1 with
      | nil => simp only [gradLoop, Option.some.injEq] at h; rw [← h]
      | cons d rest =>
        rw [gradLoop] at h
        by_cases h1 : c.x = -1
        · rw [if_pos h1] at h; exact ih _ _ _ _ res h x y hpos
        · rw [if_neg h1] at h
          by_cases h2 : 0 < mask c.x c.y
          · rw [if_pos h2] at h; exact ih _ _ _ _ res h x y hpos
          · rw [if_neg h2] at h
            have hne : ¬(x = c.x ∧ y = c.y) := by
              rintro ⟨rfl, rfl⟩; exact h2 hpos
            have := ih _ _ _ _ res h x y
              (by rw [upd_ne _ _ _ _ _ _ hne]; exact hpos)
            rw [this, upd_ne _ _ _ _ _ _ hne]

/-- Generic safety invariant of a gradient loop: if a cell property `P` is
closed under BFS pushes, holds for every non-marker queue cell and for every
cell with nonzero mask, then it holds for every cell with nonzero mask when
the loop completes. -/
theorem gradLoop_mask_inv (F L : Grid) (W H : Int)
    (assign : (Int → Int) → Int → Int → Int → Int)
    (fhUpd : (Int → Int) → Int → Int → (Int → Int))
    (P : Int → Int → Prop)
    (hpush : ∀ x y, P x y → ∀ d ∈ pushList F L W H x y, P d.x d.y) :
    ∀ (fuel : Nat) (mask : Grid) (fh : Int → Int) (q : List GCell)
      (loops : Int) (res : Grid × (Int → Int)),
      gradLoop F L W H assign fhUpd fuel mask fh q loops = some res →
      (∀ c ∈ q, c.x = -1 ∨ P c.x c.y) →
      (∀ x y, mask x y ≠ 0 → P x y) →
      ∀ x y, res.1 x y ≠ 0 → P x y := by
  intro fuel
  induction fuel with
  | zero =>
    intro mask fh q loops res h hq hm x y hnz
    cases q with
    | nil => exact absurd h (by simp [gradLoop])
    | cons c q1 =>
      cases q1 with
      | nil =>
        simp only [gradLoop, Option.some.injEq] at h
        rw [← h] at hnz; exact hm x y hnz
      | cons d rest => exact absurd h (by simp [gradLoop])
  | succ n ih =>
    intro mask fh q loops res h hq hm x y hnz
    cases q with
    | nil => exact absurd h (by simp [gradLoop])
    | cons c q1 =>
      cases q1 with
      | nil =>
        simp only [gradLoop, Option.some.injEq] at h
        rw [← h] at hnz; exact hm x y hnz
      | cons d rest =>
        rw [gradLoop] at h
        by_cases h1 : c.x = -1
        · rw [if_pos h1] at h
          refine ih _ _ _ _ res h ?_ hm x y hnz
          intro e he
          rcases List.mem_append.mp he with he | he
          · exact hq e (List.mem_cons_of_mem _ he)
          · rw [List.mem_singleton] at he; subst he; exact Or.inl rfl
        · rw [if_neg h1] at h
          by_cases h2 : 0 < mask c.x c.y
          · rw [if_pos h2] at h
            exact ih _ _ _ _ res h
              (fun e he => hq e (List.mem_cons_of_mem _ he)) hm x y hnz
          · rw [if_neg h2] at h
            have hPc : P c.x c.y := by
              rcases hq c (List.mem_cons_self _ _) with hc | hc
              · exact absurd hc h1
              · exact hc
            refine ih _ _ _ _ res h ?_ ?_ x y hnz
            · intro e he
              rcases List.mem_append.mp he with he | he
              · exact hq e (List.mem_cons_of_mem _ he)
              · exact Or.inr (hpush c.x c.y hPc e he)
            · intro a b hab
              by_cases hcc : a = c.x ∧ b = c.y
              · rw [hcc.1, hcc.2]; exact hPc
              · rw [upd_ne _ _ _ _ _ _ hcc] at hab
                exact hm a b hab

/-! ## Helper lemmas: the away gradient -/

/-- Combined value invariant of `BuildAwayGradient`'s loop: mask values are
nonnegative and bounded by the wavefront counter, positive mask values are
bounded by the recorded flat height of their label, and flat heights are
nonnegative and bounded by the counter. -/
theorem awayLoop_inv (F L : Grid) (W H : Int) :
    ∀ (fuel : Nat) (mask : Grid) (fh : Int → Int) (q : List GCell)
      (loops : Int) (res : Grid × (Int → Int)),
      gradLoop F L W H awayAssign awayFhUpd fuel mask fh q loops = some res →
      1 ≤ loops →
      (∀ lab, 0 ≤ fh lab ∧ fh lab ≤ loops) →
      (∀ x y, 0 ≤ mask x y ∧ mask x y ≤ loops ∧
        (0 < mask x y → mask x y ≤ fh (L x y))) →
      (∀ lab, 0 ≤ res.2 lab) ∧
      (∀ x y, 0 ≤ res.1 x y ∧
        (0 < res.1 x y → res.1 x y ≤ res.2 (L x y))) := by
  intro fuel
  induction fuel with
  | zero =>
    intro mask fh q loops res h hl hfh hm
    cases q with
    | nil => exact absurd h (by simp [gradLoop])
    | cons c q1 =>
      cases q1 with
      | nil =>
        simp only [gradLoop, Option.some.injEq] at h
        rw [← h]
        exact ⟨fun lab => (hfh lab).1,
          fun x y => ⟨(hm x y).1, (hm x y).2.2⟩⟩
      | cons d rest => exact absurd h (by simp [gradLoop])
  | succ n ih =>
    intro mask fh q loops res h hl hfh hm
    cases q with
    | nil => exact absurd h (by simp [gradLoop])
    | cons c q1 =>
      cases q1 with
      | nil =>
        simp only [gradLoop, Option.some.injEq] at h
        rw [← h]
        exact ⟨fun lab => (hfh lab).1,
          fun x y => ⟨(hm x y).1, (hm x y).2.2⟩⟩
      | cons d rest =>
        rw [gradLoop] at h
        by_cases h1 : c.x = -1
        · rw [if_pos h1] at h
          refine ih _ _ _ _ res h (by omega) ?_ ?_
          · intro lab; have := hfh lab; omega
          · intro x y; have := hm x y; exact ⟨this.1, by omega, this.2.2⟩
        · rw [if_neg h1] at h
          by_cases h2 : 0 < mask c.x c.y
          · rw [if_pos h2] at h
            exact ih _ _ _ _ res h hl hfh hm
          · rw [if_neg h2] at h
            refine ih _ _ _ _ res h hl ?_ ?_
            · intro lab
              simp only [awayFhUpd]
              by_cases hlab : lab = L c.x c.y
              · subst hlab; rw [updF_self]; omega
              · rw [updF_ne _ _ _ _ hlab]; exact hfh lab
            · intro x y
              simp only [awayAssign, awayFhUpd]
              by_cases hxy : x = c.x ∧ y = c.y
              · obtain ⟨rfl, rfl⟩ := hxy
                rw [upd_self, updF_self]
                exact ⟨by omega, le_refl _, fun _ => le_refl _⟩
              · rw [upd_ne _ _ _ _ _ _ hxy]
                obtain ⟨ha, hb, hc2⟩ := hm x y
                refine ⟨ha, hb, fun hpos => ?_⟩
                by_cases hlab : L x y = L c.x c.y
                · rw [hlab, updF_self]
                  have := hfh (L x y)
                  omega
                · rw [updF_ne _ _ _ _ hlab]
                  exact hc2 hpos

theorem pushList_x_nonneg (F L : Grid) (W H x y : Int) :
    ∀ e ∈ pushList F L W H x y, e.x ≠ -1 := by
  intro e he
  obtain ⟨n, _, rfl, hin, _, _⟩ := (mem_pushList F L W H x y e).mp he
  have := hin.1
  dsimp only
  omega

/-- Zone analysis of `BuildAwayGradient`'s loop.  The queue is
`front ++ marker :: back`: `front` holds the remainder of the current
wavefront, `back` the cells pushed during it.  Provided every unassigned
front (resp. back) cell has provenance for value `loops` (resp. `loops+1`),
a completed run assigns every unassigned front cell exactly `loops`, every
unassigned back cell a positive value at most `loops+1`, gives every newly
assigned cell an `AwayProv` provenance, and is 1-Lipschitz along pushes from
newly assigned cells. -/
theorem awayLoop_zones (F L : Grid) (W H : Int) (S0 : List GCell) :
    ∀ (fuel : Nat) (mask : Grid) (fh : Int → Int) (front back : List GCell)
      (loops : Int) (res : Grid × (Int → Int)),
      gradLoop F L W H awayAssign awayFhUpd fuel mask fh
        (front ++ ⟨-1, -1⟩ :: back) loops = some res →
      1 ≤ loops →
      (∀ d ∈ front, d.x ≠ -1) →
      (∀ d ∈ back, d.x ≠ -1) →
      (∀ x y, 0 < mask x y → mask x y ≤ loops) →
      (∀ d ∈ front, ¬ 0 < mask d.x d.y →
        AwayPre F L W H S0 res.1 loops d) →
      (∀ d ∈ back, ¬ 0 < mask d.x d.y →
        AwayPre F L W H S0 res.1 (loops + 1) d) →
      (∀ d ∈ front, ¬ 0 < mask d.x d.y → res.1 d.x d.y = loops) ∧
      (∀ d ∈ back, ¬ 0 < mask d.x d.y →
        0 < res.1 d.x d.y ∧ res.1 d.x d.y ≤ loops + 1) ∧
      (∀ x y, ¬ 0 < mask x y → 0 < res.1 x y →
        AwayProv F L W H S0 res.1 ⟨x, y⟩) ∧
      (∀ x y, ¬ 0 < mask x y → 0 < res.1 x y →
        ∀ e ∈ pushList F L W H x y,
          0 < res.1 e.x e.y ∧ res.1 e.x e.y ≤ res.1 x y + 1) := by
  intro fuel
  induction fuel with
  | zero =>
    intro mask fh front back loops res h hl hmf hmb hbnd hPF hPB
    cases front with
    | cons c front1 =>
      rw [List.cons_append] at h
      cases hq : front1 ++ (⟨-1, -1⟩ : GCell) :: back with
      | nil => exact absurd hq (by simp)
      | cons d rest => rw [hq] at h; exact absurd h (by simp [gradLoop])
    | nil =>
      cases back with
      | cons d rest => exact absurd h (by simp [gradLoop])
      | nil =>
        simp only [List.nil_append, gradLoop, Option.some.injEq] at h
        rw [← h]
        refine ⟨by simp, by simp, ?_, ?_⟩
        · intro x y hneg hpos; exact absurd hpos hneg
        · intro x y hneg hpos; exact absurd hpos hneg
  | succ n ih =>
    intro mask fh front back loops res h hl hmf hmb hbnd hPF hPB
    cases front with
    | nil =>
      cases back with
      | nil =>
        simp only [List.nil_append, gradLoop, Option.some.injEq] at h
        rw [← h]
        refine ⟨by simp, by simp, ?_, ?_⟩
        · intro x y hneg hpos; exact absurd hpos hneg
        · intro x y hneg hpos; exact absurd hpos hneg
      | cons d rest =>
        rw [List.nil_append, gradLoop, if_pos rfl] at h
        have hIH := ih mask fh (d :: rest) [] (loops + 1) res
          (by rw [List.cons_append]; exact h)
          (by omega) hmb (by simp)
          (fun x y hp => le_trans (hbnd x y hp) (by omega))
          hPB (by simp)
        refine ⟨by simp, ?_, hIH.2.2.1, hIH.2.2.2⟩
        intro e he hneg
        have := hIH.1 e he hneg
        constructor
        · omega
        · omega
    | cons c front1 =>
      rw [List.cons_append] at h
      cases hq : front1 ++ (⟨-1, -1⟩ : GCell) :: back with
      | nil => exact absurd hq (by simp)
      | cons d rest =>
        rw [hq] at h
        rw [gradLoop, if_neg (hmf c (List.mem_cons_self _ _))] at h
        by_cases h2 : 0 < mask c.x c.y
        · rw [if_pos h2] at h
          rw [← hq] at h
          have hIH := ih mask fh front1 back loops res h hl
            (fun e he => hmf e (List.mem_cons_of_mem _ he)) hmb hbnd
            (fun e he => hPF e (List.mem_cons_of_mem _ he)) hPB
          refine ⟨?_, hIH.2.1, hIH.2.2.1, hIH.2.2.2⟩
          intro e he hneg
          rcases List.mem_cons.mp he with rfl | he1
          · exact absurd h2 hneg
          · exact hIH.1 e he1 hneg
        · rw [if_neg h2] at h
          rw [← hq, List.append_assoc, List.cons_append] at h
          simp only [awayAssign, awayFhUpd] at h
          have hposc : 0 < upd mask c.x c.y loops c.x c.y := by
            rw [upd_self]; omega
          have hresc : res.1 c.x c.y = loops := by
            have := gradLoop_preserve_pos F L W H awayAssign awayFhUpd n
              _ _ _ _ res h c.x c.y hposc
            rw [this, upd_self]
          have hIH := ih (upd mask c.x c.y loops) (updF fh (L c.x c.y) loops)
            front1 (back ++ pushList F L W H c.x c.y) loops res h hl
            (fun e he => hmf e (List.mem_cons_of_mem _ he))
            (by intro e he
                rcases List.mem_append.mp he with he | he
                · exact hmb e he
                · exact pushList_x_nonneg F L W H c.x c.y e he)
            (by intro x y hp
                by_cases hxy : x = c.x ∧ y = c.y
                · obtain ⟨rfl, rfl⟩ := hxy; simp [upd_self]
                · rw [upd_ne _ _ _ _ _ _ hxy] at hp ⊢; exact hbnd x y hp)
            (by intro e he hneg
                have hne : ¬(e.x = c.x ∧ e.y = c.y) := by
                  rintro ⟨hx1, hy1⟩
                  apply hneg
                  rw [hx1, hy1, upd_self]
                  omega
                rw [upd_ne _ _ _ _ _ _ hne] at hneg
                exact hPF e (List.mem_cons_of_mem _ he) hneg)
            (by intro e he hneg
                rcases List.mem_append.mp he with he | he
                · have hne : ¬(e.x = c.x ∧ e.y = c.y) := by
                    rintro hcc
                    apply hneg
                    rw [hcc.1, hcc.2, upd_self]; omega
                  rw [upd_ne _ _ _ _ _ _ hne] at hneg
                  exact hPB e he hneg
                · right
                  exact ⟨c, he, by rw [hresc]; omega, by rw [hresc]⟩)
          obtain ⟨K1, K2, K3, K4⟩ := hIH
          have hcoord : ∀ a b : Int, ¬(a = c.x ∧ b = c.y) →
              upd mask c.x c.y loops a b = mask a b := by
            intro a b hne; exact upd_ne _ _ _ _ _ _ hne
          refine ⟨?_, ?_, ?_, ?_⟩
          · intro e he hneg
            rcases List.mem_cons.mp he with rfl | he1
            · exact hresc
            · by_cases hne : e.x = c.x ∧ e.y = c.y
              · rw [hne.1, hne.2]; exact hresc
              · exact K1 e he1 (by rw [hcoord _ _ hne]; exact hneg)
          · intro e he hneg
            by_cases hne : e.x = c.x ∧ e.y = c.y
            · rw [hne.1, hne.2, hresc]; omega
            · exact K2 e (List.mem_append_left _ he)
                (by rw [hcoord _ _ hne]; exact hneg)
          · intro x y hneg hpos
            by_cases hne : x = c.x ∧ y = c.y
            · obtain ⟨rfl, rfl⟩ := hne
              rcases hPF c (List.mem_cons_self _ _) hneg with ⟨hS, hv⟩ | ⟨m, hm1, hm2, hm3⟩
              · exact Or.inl ⟨hS, by rw [hresc, hv]⟩
              · exact Or.inr ⟨m, hm1, hm2, by rw [hresc]; omega⟩
            · exact K3 x y (by rw [hcoord _ _ hne]; exact hneg) hpos
          · intro x y hneg hpos e he
            by_cases hne : x = c.x ∧ y = c.y
            · obtain ⟨rfl, rfl⟩ := hne
              by_cases hne2 : 0 < upd mask c.x c.y loops e.x e.y
              · have := gradLoop_preserve_pos F L W H awayAssign awayFhUpd n
                  _ _ _ _ res h e.x e.y hne2
                rw [this]
                refine ⟨hne2, ?_⟩
                by_cases hne3 : e.x = c.x ∧ e.y = c.y
                · rw [hne3.1, hne3.2, upd_self, hresc]; omega
                · rw [hcoord _ _ hne3] at hne2 ⊢
                  have := hbnd e.x e.y hne2
                  rw [hresc]; omega
              · have := K2 e (List.mem_append_right _ he) hne2
                rw [hresc]
                omega
            · exact K4 x y (by rw [hcoord _ _ hne]; exact hneg) hpos e he

/-! ## Helper lemmas: the toward gradient -/

theorem tdelta_nonneg (fh : Int → Int) (m0 L : Grid)
    (hpos0 : ∀ x y, 0 ≤ fh (L x y) + m0 x y) (c : GCell) :
    0 ≤ tdelta fh m0 L c := by
  unfold tdelta
  split
  · exact hpos0 c.x c.y
  · exact le_refl 0

/-- Zone analysis of `BuildTowardsCombinedGradient`'s loop, relative to the
pre-pass (sign-flipped) mask `m0`: non-positive mask values still equal
`m0`'s, and since `flat_height` dominates `−m0` every assignment writes the
positive value `2·loops + tdelta`.  A completed run assigns every unassigned
front cell exactly at the current wavefront, every unassigned back cell at
the current or next wavefront, gives every newly assigned cell a `TowProv`
provenance, and assigns every cell pushed from a newly assigned cell. -/
theorem towardLoop_zones (F L : Grid) (W H : Int) (S0 : List GCell)
    (m0 : Grid) (fh : Int → Int)
    (hpos0 : ∀ x y, 0 ≤ fh (L x y) + m0 x y) :
    ∀ (fuel : Nat) (mask : Grid) (front back : List GCell)
      (loops : Int) (res : Grid × (Int → Int)),
      gradLoop F L W H towardAssign towardFhUpd fuel mask fh
        (front ++ ⟨-1, -1⟩ :: back) loops = some res →
      1 ≤ loops →
      (∀ d ∈ front, d.x ≠ -1) →
      (∀ d ∈ back, d.x ≠ -1) →
      (∀ x y, mask x y = m0 x y ∨ 0 < mask x y) →
      (∀ d ∈ front, ¬ 0 < mask d.x d.y →
        TowPre F L W H S0 fh m0 res.1 loops d) →
      (∀ d ∈ back, ¬ 0 < mask d.x d.y →
        TowPre F L W H S0 fh m0 res.1 (loops + 1) d) →
      (∀ d ∈ front, ¬ 0 < mask d.x d.y →
        res.1 d.x d.y = 2 * loops + tdelta fh m0 L d) ∧
      (∀ d ∈ back, ¬ 0 < mask d.x d.y →
        res.1 d.x d.y = 2 * loops + tdelta fh m0 L d ∨
        res.1 d.x d.y = 2 * (loops + 1) + tdelta fh m0 L d) ∧
      (∀ x y, ¬ 0 < mask x y → 0 < res.1 x y →
        TowProv F L W H S0 fh m0 res.1 ⟨x, y⟩) ∧
      (∀ x y, ¬ 0 < mask x y → 0 < res.1 x y →
        ∀ e ∈ pushList F L W H x y, 0 < res.1 e.x e.y) := by
  intro fuel
  induction fuel with
  | zero =>
    intro mask front back loops res h hl hmf hmb hev hPF hPB
    cases front with
    | cons c front1 =>
      rw [List.cons_append] at h
      cases hq : front1 ++ (⟨-1, -1⟩ : GCell) :: back with
      | nil => exact absurd hq (by simp)
      | cons d rest => rw [hq] at h; exact absurd h (by simp [gradLoop])
    | nil =>
      cases back with
      | cons d rest => exact absurd h (by simp [gradLoop])
      | nil =>
        simp only [List.nil_append, gradLoop, Option.some.injEq] at h
        rw [← h]
        refine ⟨by simp, by simp, ?_, ?_⟩
        · intro x y hneg hpos; exact absurd hpos hneg
        · intro x y hneg hpos; exact absurd hpos hneg
  | succ n ih =>
    intro mask front back loops res h hl hmf hmb hev hPF hPB
    cases front with
    | nil =>
      cases back with
      | nil =>
        simp only [List.nil_append, gradLoop, Option.some.injEq] at h
        rw [← h]
        refine ⟨by simp, by simp, ?_, ?_⟩
        · intro x y hneg hpos; exact absurd hpos hneg
        · intro x y hneg hpos; exact absurd hpos hneg
      | cons d rest =>
        rw [List.nil_append, gradLoop, if_pos rfl] at h
        have hIH := ih mask (d :: rest) [] (loops + 1) res
          (by rw [List.cons_append]; exact h)
          (by omega) hmb (by simp) hev hPB (by simp)
        refine ⟨by simp, ?_, hIH.2.2.1, hIH.2.2.2⟩
        intro e he hneg
        exact Or.inr (hIH.1 e he hneg)
    | cons c front1 =>
      rw [List.cons_append] at h
      cases hq : front1 ++ (⟨-1, -1⟩ : GCell) :: back with
      | nil => exact absurd hq (by simp)
      | cons d rest =>
        rw [hq] at h
        rw [gradLoop, if_neg (hmf c (List.mem_cons_self _ _))] at h
        by_cases h2 : 0 < mask c.x c.y
        · rw [if_pos h2] at h
          rw [← hq] at h
          have hIH := ih mask front1 back loops res h hl
            (fun e he => hmf e (List.mem_cons_of_mem _ he)) hmb hev
            (fun e he => hPF e (List.mem_cons_of_mem _ he)) hPB
          refine ⟨?_, hIH.2.1, hIH.2.2.1, hIH.2.2.2⟩
          intro e he hneg
          rcases List.mem_cons.mp he with rfl | he1
          · exact absurd h2 hneg
          · exact hIH.1 e he1 hneg
        · rw [if_neg h2] at h
          rw [← hq, List.append_assoc, List.cons_append] at h
          have hmc : mask c.x c.y = m0 c.x c.y := by
            rcases hev c.x c.y with hh | hh
            · exact hh
            · exact absurd hh h2
          have hval : towardAssign fh loops (L c.x c.y) (mask c.x c.y) =
              2 * loops + tdelta fh m0 L c := by
            unfold towardAssign tdelta
            rw [hmc]
            split
            · omega
            · omega
          rw [hval] at h
          have hvpos : 0 < 2 * loops + tdelta fh m0 L c := by
            have := tdelta_nonneg fh m0 L hpos0 c
            omega
          have hposc : 0 < upd mask c.x c.y (2 * loops + tdelta fh m0 L c)
              c.x c.y := by
            rw [upd_self]; exact hvpos
          have hresc : res.1 c.x c.y = 2 * loops + tdelta fh m0 L c := by
            have := gradLoop_preserve_pos F L W H towardAssign towardFhUpd n
              _ _ _ _ res h c.x c.y hposc
            rw [this, upd_self]
          simp only [towardFhUpd] at h
          have hIH := ih (upd mask c.x c.y (2 * loops + tdelta fh m0 L c))
            front1 (back ++ pushList F L W H c.x c.y) loops res h hl
            (fun e he => hmf e (List.mem_cons_of_mem _ he))
            (by intro e he
                rcases List.mem_append.mp he with he | he
                · exact hmb e he
                · exact pushList_x_nonneg F L W H c.x c.y e he)
            (by intro x y
                by_cases hxy : x = c.x ∧ y = c.y
                · obtain ⟨rfl, rfl⟩ := hxy
                  rw [upd_self]
                  exact Or.inr hvpos
                · rw [upd_ne _ _ _ _ _ _ hxy]
                  exact hev x y)
            (by intro e he hneg
                have hne : ¬(e.x = c.x ∧ e.y = c.y) := by
                  rintro ⟨hx1, hy1⟩
                  apply hneg
                  rw [hx1, hy1, upd_self]
                  exact hvpos
                rw [upd_ne _ _ _ _ _ _ hne] at hneg
                exact hPF e (List.mem_cons_of_mem _ he) hneg)
            (by intro e he hneg
                rcases List.mem_append.mp he with he | he
                · have hne : ¬(e.x = c.x ∧ e.y = c.y) := by
                    rintro ⟨hx1, hy1⟩
                    apply hneg
                    rw [hx1, hy1, upd_self]
                    exact hvpos
                  rw [upd_ne _ _ _ _ _ _ hne] at hneg
                  exact hPB e he hneg
                · right
                  exact ⟨c, he, by rw [hresc]; exact hvpos,
                    by rw [hresc]; ring⟩)
          obtain ⟨K1, K2, K3, K4⟩ := hIH
          have hcoord : ∀ a b : Int, ¬(a = c.x ∧ b = c.y) →
              upd mask c.x c.y (2 * loops + tdelta fh m0 L c) a b =
                mask a b := by
            intro a b hne; exact upd_ne _ _ _ _ _ _ hne
          have hcell : ∀ e : GCell, e.x = c.x → e.y = c.y →
              tdelta fh m0 L e = tdelta fh m0 L c := by
            intro e hx1 hy1
            unfold tdelta
            rw [hx1, hy1]
          refine ⟨?_, ?_, ?_, ?_⟩
          · intro e he hneg
            rcases List.mem_cons.mp he with rfl | he1
            · exact hresc
            · by_cases hne : e.x = c.x ∧ e.y = c.y
              · rw [hne.1, hne.2, hcell e hne.1 hne.2]; exact hresc
              · exact K1 e he1 (by rw [hcoord _ _ hne]; exact hneg)
          · intro e he hneg
            by_cases hne : e.x = c.x ∧ e.y = c.y
            · left; rw [hne.1, hne.2, hcell e hne.1 hne.2]; exact hresc
            · exact K2 e (List.mem_append_left _ he)
                (by rw [hcoord _ _ hne]; exact hneg)
          · intro x y hneg hpos
            by_cases hne : x = c.x ∧ y = c.y
            · obtain ⟨rfl, rfl⟩ := hne
              rcases hPF c (List.mem_cons_self _ _) hneg with hS | ⟨m, hm1, hm2, hm3⟩
              · exact Or.inl hS
              · refine Or.inr ⟨m, hm1, hm2, ?_⟩
                rw [hresc, hm3]
                ring
            · exact K3 x y (by rw [hcoord _ _ hne]; exact hneg) hpos
          · intro x y hneg hpos e he
            by_cases hne : x = c.x ∧ y = c.y
            · obtain ⟨rfl, rfl⟩ := hne
              by_cases hne2 : 0 < upd mask c.x c.y
                  (2 * loops + tdelta fh m0 L c) e.x e.y
              · have := gradLoop_preserve_pos F L W H towardAssign towardFhUpd
                  n _ _ _ _ res h e.x e.y hne2
                rw [this]
                exact hne2
              · rcases K2 e (List.mem_append_right _ he) hne2 with hv | hv <;>
                · rw [hv]
                  have := tdelta_nonneg fh m0 L hpos0 e
                  omega
            · exact K4 x y (by rw [hcoord _ _ hne]; exact hneg) hpos e he

/-! ## Helper lemmas: the flood fill (`label_this`) -/

/-- Cells already positively labeled are never overwritten by the flood-fill
loop (the `labels(c.x,c.y)>0` discard at line 347). -/
theorem labelThisLoop_preserve_pos (E : Grid) (W H target label : Int) :
    ∀ (fuel : Nat) (labels : Grid) (q : List GCell) (res : Grid),
      labelThisLoop E W H target label fuel labels q = some res →
      ∀ x y, 0 < labels x y → res x y = labels x y := by
  intro fuel
  induction fuel with
  | zero =>
    intro labels q res h x y hpos
    cases q with
    | nil => simp only [labelThisLoop, Option.some.injEq] at h; rw [← h]
    | cons c rest => simp [labelThisLoop] at h
  | succ n ih =>
    intro labels q res h x y hpos
    cases q with
    | nil => simp only [labelThisLoop, Option.some.injEq] at h; rw [← h]
    | cons c rest =>
      rw [labelThisLoop] at h
      by_cases h1 : E c.x c.y ≠ target
      · rw [if_pos h1] at h; exact ih labels rest res h x y hpos
      · rw [if_neg h1] at h
        by_cases h2 : 0 < labels c.x c.y
        · rw [if_pos h2] at h; exact ih labels rest res h x y hpos
        · rw [if_neg h2] at h
          have hne : ¬(x = c.x ∧ y = c.y) := by
            rintro ⟨rfl, rfl⟩; exact h2 hpos
          have := ih _ _ res h x y (by rw [upd_ne _ _ _ _ _ _ hne]; exact hpos)
          rw [this, upd_ne _ _ _ _ _ _ hne]

/-- Every cell value after the flood-fill loop is either its old value or the
fill's label. -/
theorem labelThisLoop_values (E : Grid) (W H target label : Int) :
    ∀ (fuel : Nat) (labels : Grid) (q : List GCell) (res : Grid),
      labelThisLoop E W H target label fuel labels q = some res →
      ∀ x y, res x y = labels x y ∨ res x y = label := by
  intro fuel
  induction fuel with
  | zero =>
    intro labels q res h x y
    cases q with
    | nil => simp only [labelThisLoop, Option.some.injEq] at h; rw [← h]; left; rfl
    | cons c rest => simp [labelThisLoop] at h
  | succ n ih =>
    intro labels q res h x y
    cases q with
    | nil => simp only [labelThisLoop, Option.some.injEq] at h; rw [← h]; left; rfl
    | cons c rest =>
      rw [labelThisLoop] at h
      by_cases h1 : E c.x c.y ≠ target
      · rw [if_pos h1] at h; exact ih labels rest res h x y
      · rw [if_neg h1] at h
        by_cases h2 : 0 < labels c.x c.y
        · rw [if_pos h2] at h; exact ih labels rest res h x y
        · rw [if_neg h2] at h
          rcases ih _ _ res h x y with hv | hv
          · by_cases hne : x = c.x ∧ y = c.y
            · right; rw [hv, upd]; simp [hne]
            · left; rw [hv, upd_ne _ _ _ _ _ _ hne]
          · right; exact hv

/-- A completed `label_this` from an unlabeled seed marks the seed with the
fill's (positive) label. -/
theorem label_this_seed (E : Grid) (W H : Int) (fuel : Nat) (x0 y0 label : Int)
    (labels res : Grid) (hpos : 0 < label) (h0 : labels x0 y0 = 0)
    (h : label_this E W H fuel x0 y0 label labels = some res) :
    res x0 y0 = label := by
  unfold label_this at h
  cases fuel with
  | zero => simp [labelThisLoop] at h
  | succ n =>
    rw [labelThisLoop] at h
    rw [if_neg (by simp), if_neg (by rw [h0]; exact lt_irrefl 0)] at h
    have := labelThisLoop_preserve_pos E W H (E x0 y0) label n _ _ res h x0 y0
      (by rw [upd_self]; exact hpos)
    rw [this, upd_self]

/-- Cells changed by the flood-fill loop have the target elevation (writes
happen only under the elevation guard at line 345). -/
theorem labelThisLoop_writes_elev (E : Grid) (W H target label : Int) :
    ∀ (fuel : Nat) (labels : Grid) (q : List GCell) (res : Grid),
      labelThisLoop E W H target label fuel labels q = some res →
      ∀ x y, res x y ≠ labels x y → E x y = target := by
  intro fuel
  induction fuel with
  | zero =>
    intro labels q res h x y hne
    cases q with
    | nil =>
      simp only [labelThisLoop, Option.some.injEq] at h
      rw [← h] at hne; exact absurd rfl hne
    | cons c rest => simp [labelThisLoop] at h
  | succ n ih =>
    intro labels q res h x y hne
    cases q with
    | nil =>
      simp only [labelThisLoop, Option.some.injEq] at h
      rw [← h] at hne; exact absurd rfl hne
    | cons c rest =>
      rw [labelThisLoop] at h
      by_cases h1 : E c.x c.y ≠ target
      · rw [if_pos h1] at h; exact ih labels rest res h x y hne
      · rw [if_neg h1] at h
        by_cases h2 : 0 < labels c.x c.y
        · rw [if_pos h2] at h; exact ih labels rest res h x y hne
        · rw [if_neg h2] at h
          by_cases hxy : x = c.x ∧ y = c.y
          · rw [hxy.1, hxy.2]; exact not_not.mp h1
          · by_cases hch : res x y = upd labels c.x c.y label x y
            · rw [upd_ne _ _ _ _ _ _ hxy] at hch
              exact absurd hch hne
            · exact ih _ _ res h x y hch

/-! ## Helper lemmas: paths (`NPath`) -/

theorem NPath_mono (W H : Int) (P Q : GCell → Prop) (hPQ : ∀ d, P d → Q d) :
    ∀ a c, NPath W H P a c → NPath W H Q a c := by
  intro a c hp
  induction hp with
  | refl h => exact NPath.refl _ (hPQ _ h)
  | tail b c hab hbc hc ih => exact NPath.tail _ _ _ ih hbc (hPQ _ hc)

theorem NPath_last (W H : Int) (P : GCell → Prop) :
    ∀ a c, NPath W H P a c → P c := by
  intro a c hp
  cases hp with
  | refl h => exact h
  | tail b c hab hbc hc => exact hc

theorem NPath_first (W H : Int) (P : GCell → Prop) :
    ∀ a c, NPath W H P a c → P a := by
  intro a c hp
  induction hp with
  | refl h => exact h
  | tail b c hab hbc hc ih => exact ih

theorem NPath_last_inGrid (W H : Int) (P : GCell → Prop) :
    ∀ a c, NPath W H P a c → inGrid W H a.x a.y → inGrid W H c.x c.y := by
  intro a c hp ha
  cases hp with
  | refl h => exact ha
  | tail b c hab hbc hc =>
    obtain ⟨n, hn, heq, hin⟩ := (mem_allNbrsIn W H b.x b.y c).mp hbc
    rw [heq]
    exact hin

/-- A completed flood fill leaves every cell carrying the fill's label
connected to the seed by an 8-path of cells carrying that label at the
target elevation. -/
theorem labelThisLoop_paths (E : Grid) (W H target label : Int) (s : GCell) :
    ∀ (fuel : Nat) (labels : Grid) (q : List GCell) (res : Grid),
      labelThisLoop E W H target label fuel labels q = some res →
      (∀ d ∈ q, d = s ∨ ∃ d' : GCell,
        (labels d'.x d'.y = label ∧ E d'.x d'.y = target) ∧
        d ∈ allNbrsIn W H d'.x d'.y) →
      (∀ x y, labels x y = label →
        NPath W H (fun d => labels d.x d.y = label ∧ E d.x d.y = target)
          s ⟨x, y⟩) →
      ∀ x y, res x y = label →
        NPath W H (fun d => res d.x d.y = label ∧ E d.x d.y = target)
          s ⟨x, y⟩ := by
  intro fuel
  induction fuel with
  | zero =>
    intro labels q res h hq hwr x y hres
    cases q with
    | nil =>
      simp only [labelThisLoop, Option.some.injEq] at h
      subst h
      exact hwr x y hres
    | cons c rest => simp [labelThisLoop] at h
  | succ n ih =>
    intro labels q res h hq hwr x y hres
    cases q with
    | nil =>
      simp only [labelThisLoop, Option.some.injEq] at h
      subst h
      exact hwr x y hres
    | cons c rest =>
      rw [labelThisLoop] at h
      by_cases h1 : E c.x c.y ≠ target
      · rw [if_pos h1] at h
        exact ih labels rest res h
          (fun d hd => hq d (List.mem_cons_of_mem _ hd)) hwr x y hres
      · rw [if_neg h1] at h
        have hEc : E c.x c.y = target := not_not.mp h1
        by_cases h2 : 0 < labels c.x c.y
        · rw [if_pos h2] at h
          exact ih labels rest res h
            (fun d hd => hq d (List.mem_cons_of_mem _ hd)) hwr x y hres
        · rw [if_neg h2] at h
          have hmono : ∀ a b : Int, labels a b = label →
              upd labels c.x c.y label a b = label := by
            intro a b hab
            by_cases hne : a = c.x ∧ b = c.y
            · rw [hne.1, hne.2, upd_self]
            · rw [upd_ne _ _ _ _ _ _ hne]; exact hab
          have hwr1 : ∀ a b : Int, upd labels c.x c.y label a b = label →
              NPath W H
                (fun d => upd labels c.x c.y label d.x d.y = label ∧
                  E d.x d.y = target) s ⟨a, b⟩ := by
            intro a b hab
            by_cases hne : a = c.x ∧ b = c.y
            · obtain ⟨rfl, rfl⟩ := hne
              rcases hq c (List.mem_cons_self _ _) with rfl | ⟨d', hd', hadj⟩
              · exact NPath.refl _ ⟨by rw [upd_self], hEc⟩
              · have hpath := hwr d'.x d'.y hd'.1
                have hpath1 := NPath_mono W H
                  (fun d => labels d.x d.y = label ∧ E d.x d.y = target)
                  (fun d => upd labels c.x c.y label d.x d.y = label ∧
                    E d.x d.y = target)
                  (fun e he => ⟨hmono e.x e.y he.1, he.2⟩) _ _ hpath
                have : NPath W H
                    (fun d => upd labels c.x c.y label d.x d.y = label ∧
                      E d.x d.y = target) s c :=
                  NPath.tail s ⟨d'.x, d'.y⟩ c
                    (by cases d'; exact hpath1) hadj ⟨by rw [upd_self], hEc⟩
                cases c; exact this
            · rw [upd_ne _ _ _ _ _ _ hne] at hab
              exact NPath_mono W H
                (fun d => labels d.x d.y = label ∧ E d.x d.y = target)
                (fun d => upd labels c.x c.y label d.x d.y = label ∧
                  E d.x d.y = target)
                (fun e he => ⟨hmono e.x e.y he.1, he.2⟩) _ _ (hwr a b hab)
          refine ih _ _ res h ?_ (fun a b hab => hwr1 a b hab) x y hres
          intro d hd
          rcases List.mem_append.mp hd with hd | hd
          · rcases hq d (List.mem_cons_of_mem _ hd) with rfl | ⟨d', hd', hadj⟩
            · exact Or.inl rfl
            · exact Or.inr ⟨d', ⟨hmono d'.x d'.y hd'.1, hd'.2⟩, hadj⟩
          · exact Or.inr ⟨c, ⟨by rw [upd_self], hEc⟩, hd⟩

/-! ## Helper lemmas: the labeling phase (`labelFlats`) -/

/-- Cells already positively labeled are never overwritten during the whole
labeling phase. -/
theorem labelFlats_preserve_pos (E : Grid) (W H : Int) (fuel : Nat) :
    ∀ (seeds : List GCell) (labels : Grid) (g : Int) (res : Grid × Int),
      labelFlats E W H fuel seeds labels g = some res →
      ∀ x y, 0 < labels x y → res.1 x y = labels x y := by
  intro seeds
  induction seeds with
  | nil =>
    intro labels g res h x y hpos
    simp only [labelFlats, Option.some.injEq] at h; rw [← h]
  | cons s rest ih =>
    intro labels g res h x y hpos
    rw [labelFlats] at h
    by_cases hs : labels s.x s.y = 0
    · rw [if_pos hs] at h
      cases hfill : label_this E W H fuel s.x s.y g labels with
      | none => rw [hfill] at h; exact absurd h (by simp)
      | some labels1 =>
        rw [hfill] at h
        have hp := labelThisLoop_preserve_pos E W H (E s.x s.y) g fuel labels _
          labels1 hfill x y hpos
        rw [← hp] at hpos ⊢
        exact ih labels1 (g + 1) res h x y hpos
    · rw [if_neg hs] at h
      exact ih labels g res h x y hpos

/-- The `group_number` counter never decreases during the labeling phase. -/
theorem labelFlats_g_mono (E : Grid) (W H : Int) (fuel : Nat) :
    ∀ (seeds : List GCell) (labels : Grid) (g : Int) (res : Grid × Int),
      labelFlats E W H fuel seeds labels g = some res → g ≤ res.2 := by
  intro seeds
  induction seeds with
  | nil =>
    intro labels g res h
    simp only [labelFlats, Option.some.injEq] at h; rw [← h]
  | cons s rest ih =>
    intro labels g res h
    rw [labelFlats] at h
    by_cases hs : labels s.x s.y = 0
    · rw [if_pos hs] at h
      cases hfill : label_this E W H fuel s.x s.y g labels with
      | none => rw [hfill] at h; exact absurd h (by simp)
      | some labels1 =>
        rw [hfill] at h
        have := ih labels1 (g + 1) res h
        omega
    · rw [if_neg hs] at h
      exact ih labels g res h

/-- Range invariant of the labeling phase: if every cell's label lies in
`[0, g)`, then afterwards every cell's label lies in `[0, group_number)`. -/
theorem labelFlats_range (E : Grid) (W H : Int) (fuel : Nat) :
    ∀ (seeds : List GCell) (labels : Grid) (g : Int) (res : Grid × Int),
      labelFlats E W H fuel seeds labels g = some res →
      (∀ x y, 0 ≤ labels x y ∧ labels x y < g) →
      ∀ x y, 0 ≤ res.1 x y ∧ res.1 x y < res.2 := by
  intro seeds
  induction seeds with
  | nil =>
    intro labels g res h hr x y
    simp only [labelFlats, Option.some.injEq] at h; rw [← h]; exact hr x y
  | cons s rest ih =>
    intro labels g res h hr
    rw [labelFlats] at h
    by_cases hs : labels s.x s.y = 0
    · rw [if_pos hs] at h
      cases hfill : label_this E W H fuel s.x s.y g labels with
      | none => rw [hfill] at h; exact absurd h (by simp)
      | some labels1 =>
        rw [hfill] at h
        refine ih labels1 (g + 1) res h ?_
        intro x y
        rcases labelThisLoop_values E W H (E s.x s.y) g fuel labels _ labels1
          hfill x y with hv | hv
        · have := hr x y; omega
        · have := hr s.x s.y; omega
    · rw [if_neg hs] at h
      intro x y
      have := ih labels g res h hr x y
      omega

/-- Surjectivity of the labeling phase onto `[1, group_number)`: every value
in the half-open interval `[1, g)` is carried by some cell beforehand, and the
fills extend this to `[1, group_number)` afterwards (the seed of fill number
`j` keeps label `j`). -/
theorem labelFlats_surj (E : Grid) (W H : Int) (fuel : Nat) :
    ∀ (seeds : List GCell) (labels : Grid) (g : Int) (res : Grid × Int),
      labelFlats E W H fuel seeds labels g = some res →
      1 ≤ g →
      (∀ j, 1 ≤ j → j < g → ∃ x y, labels x y = j) →
      ∀ j, 1 ≤ j → j < res.2 → ∃ x y, res.1 x y = j := by
  intro seeds
  induction seeds with
  | nil =>
    intro labels g res h _ hj j h1 h2
    simp only [labelFlats, Option.some.injEq] at h; rw [← h]
    exact hj j h1 (by rw [← h] at h2; exact h2)
  | cons s rest ih =>
    intro labels g res h hg hj
    rw [labelFlats] at h
    by_cases hs : labels s.x s.y = 0
    · rw [if_pos hs] at h
      cases hfill : label_this E W H fuel s.x s.y g labels with
      | none => rw [hfill] at h; exact absurd h (by simp)
      | some labels1 =>
        rw [hfill] at h
        refine ih labels1 (g + 1) res h (by omega) ?_
        intro j h1 h2
        by_cases hjg : j = g
        · exact ⟨s.x, s.y, by
            rw [hjg]
            exact label_this_seed E W H fuel s.x s.y g labels labels1
              (by omega) hs hfill⟩
        · obtain ⟨x, y, hxy⟩ := hj j h1 (by omega)
          refine ⟨x, y, ?_⟩
          rw [← hxy]
          exact labelThisLoop_preserve_pos E W H (E s.x s.y) g fuel labels _
            labels1 hfill x y (by omega)
    · rw [if_neg hs] at h
      exact ih labels g res h hg hj

/-- Every seed of the labeling phase ends up positively labeled (it is
either already labeled, or flood-filled with the current group number). -/
theorem labelFlats_seeds_labeled (E : Grid) (W H : Int) (fuel : Nat) :
    ∀ (seeds : List GCell) (labels : Grid) (g : Int) (res : Grid × Int),
      labelFlats E W H fuel seeds labels g = some res →
      1 ≤ g → (∀ x y, 0 ≤ labels x y) →
      ∀ s ∈ seeds, 0 < res.1 s.x s.y := by
  intro seeds
  induction seeds with
  | nil => intro labels g res h hg hnn s hs; exact absurd hs (by simp)
  | cons s0 rest ih =>
    intro labels g res h hg hnn s hs
    rw [labelFlats] at h
    by_cases hs0 : labels s0.x s0.y = 0
    · rw [if_pos hs0] at h
      cases hfill : label_this E W H fuel s0.x s0.y g labels with
      | none => rw [hfill] at h; exact absurd h (by simp)
      | some labels1 =>
        rw [hfill] at h
        have hnn1 : ∀ x y, 0 ≤ labels1 x y := by
          intro x y
          rcases labelThisLoop_values E W H (E s0.x s0.y) g fuel labels _
            labels1 hfill x y with hv | hv
          · rw [hv]; exact hnn x y
          · rw [hv]; omega
        rcases List.mem_cons.mp hs with rfl | hs1
        · have hseed := label_this_seed E W H fuel s.x s.y g labels labels1
            (by omega) hs0 hfill
          have := labelFlats_preserve_pos E W H fuel rest labels1 (g + 1) res
            h s.x s.y (by rw [hseed]; omega)
          rw [this, hseed]; omega
        · exact ih labels1 (g + 1) res h (by omega) hnn1 s hs1
    · rw [if_neg hs0] at h
      rcases List.mem_cons.mp hs with rfl | hs1
      · have hpos : 0 < labels s.x s.y := by have := hnn s.x s.y; omega
        have := labelFlats_preserve_pos E W H fuel rest labels g res h
          s.x s.y hpos
        rw [this]; exact hpos
      · exact ih labels g res h hg hnn s hs1

/-- Cells bearing one (positive) label have one elevation: each fill writes
only cells at its target elevation and labels are never reused. -/
theorem labelFlats_label_elev (E : Grid) (W H : Int) (fuel : Nat) :
    ∀ (seeds : List GCell) (labels : Grid) (g : Int) (res : Grid × Int),
      labelFlats E W H fuel seeds labels g = some res →
      (∀ x y, 0 ≤ labels x y ∧ labels x y < g) →
      (∀ x y a b, 0 < labels x y → labels x y = labels a b →
        E x y = E a b) →
      ∀ x y a b, 0 < res.1 x y → res.1 x y = res.1 a b → E x y = E a b := by
  intro seeds
  induction seeds with
  | nil =>
    intro labels g res h hr hcons x y a b
    simp only [labelFlats, Option.some.injEq] at h
    rw [← h]
    exact hcons x y a b
  | cons s0 rest ih =>
    intro labels g res h hr hcons
    rw [labelFlats] at h
    by_cases hs0 : labels s0.x s0.y = 0
    · rw [if_pos hs0] at h
      cases hfill : label_this E W H fuel s0.x s0.y g labels with
      | none => rw [hfill] at h; exact absurd h (by simp)
      | some labels1 =>
        rw [hfill] at h
        have hr1 : ∀ x y, 0 ≤ labels1 x y ∧ labels1 x y < g + 1 := by
          intro x y
          rcases labelThisLoop_values E W H (E s0.x s0.y) g fuel labels _
            labels1 hfill x y with hv | hv
          · have := hr x y; omega
          · have := hr s0.x s0.y; omega
        have hcons1 : ∀ x y a b, 0 < labels1 x y →
            labels1 x y = labels1 a b → E x y = E a b := by
          intro x y a b hpos heq
          rcases labelThisLoop_values E W H (E s0.x s0.y) g fuel labels _
              labels1 hfill x y with hv1 | hv1 <;>
            rcases labelThisLoop_values E W H (E s0.x s0.y) g fuel labels _
              labels1 hfill a b with hv2 | hv2
          · exact hcons x y a b (by rw [← hv1]; exact hpos)
              (by rw [← hv1, ← hv2]; exact heq)
          · exfalso; have := (hr x y).2; omega
          · exfalso; have := (hr a b).2; omega
          · have hx := labelThisLoop_writes_elev E W H (E s0.x s0.y) g fuel
              labels _ labels1 hfill x y
              (by rw [hv1]; have := (hr x y).2; omega)
            have ha := labelThisLoop_writes_elev E W H (E s0.x s0.y) g fuel
              labels _ labels1 hfill a b
              (by rw [hv2]; have := (hr a b).2; omega)
            rw [hx, ha]
        exact ih labels1 (g + 1) res h hr1 hcons1
    · rw [if_neg hs0] at h
      exact ih labels g res h hr hcons

/-- Every positively labeled cell is joined to some low-edge seed by an
8-path of cells of its label and its elevation. -/
theorem labelFlats_paths (E : Grid) (W H : Int) (fuel : Nat)
    (SL : List GCell) :
    ∀ (seeds : List GCell) (labels : Grid) (g : Int) (res : Grid × Int),
      labelFlats E W H fuel seeds labels g = some res →
      (∀ s ∈ seeds, s ∈ SL) →
      (∀ x y, 0 ≤ labels x y ∧ labels x y < g) →
      (∀ x y, 0 < labels x y → ∃ s ∈ SL,
        NPath W H (fun d => labels d.x d.y = labels x y ∧ E d.x d.y = E x y)
          s ⟨x, y⟩) →
      ∀ x y, 0 < res.1 x y → ∃ s ∈ SL,
        NPath W H (fun d => res.1 d.x d.y = res.1 x y ∧ E d.x d.y = E x y)
          s ⟨x, y⟩ := by
  intro seeds
  induction seeds with
  | nil =>
    intro labels g res h hSL hr hpaths x y
    simp only [labelFlats, Option.some.injEq] at h
    rw [← h]
    exact hpaths x y
  | cons s0 rest ih =>
    intro labels g res h hSL hr hpaths
    rw [labelFlats] at h
    by_cases hs0 : labels s0.x s0.y = 0
    · rw [if_pos hs0] at h
      cases hfill : label_this E W H fuel s0.x s0.y g labels with
      | none => rw [hfill] at h; exact absurd h (by simp)
      | some labels1 =>
        rw [hfill] at h
        have hr1 : ∀ x y, 0 ≤ labels1 x y ∧ labels1 x y < g + 1 := by
          intro x y
          rcases labelThisLoop_values E W H (E s0.x s0.y) g fuel labels _
            labels1 hfill x y with hv | hv
          · have := hr x y; omega
          · have := hr s0.x s0.y; omega
        have hpaths1 : ∀ x y, 0 < labels1 x y → ∃ s ∈ SL,
            NPath W H
              (fun d => labels1 d.x d.y = labels1 x y ∧ E d.x d.y = E x y)
              s ⟨x, y⟩ := by
          intro x y hpos
          rcases labelThisLoop_values E W H (E s0.x s0.y) g fuel labels _
            labels1 hfill x y with hv | hv
          · obtain ⟨s, hs, hpath⟩ := hpaths x y (by rw [← hv]; exact hpos)
            refine ⟨s, hs, ?_⟩
            refine NPath_mono W H _ _ ?_ _ _ hpath
            intro e he
            have hel := labelThisLoop_preserve_pos E W H (E s0.x s0.y) g
              fuel labels _ labels1 hfill e.x e.y
              (by rw [he.1, ← hv]; exact hpos)
            exact ⟨by rw [hel, he.1, ← hv], he.2⟩
          · have hchanged : labels1 x y ≠ labels x y := by
              have := (hr x y).2; omega
            have hE := labelThisLoop_writes_elev E W H (E s0.x s0.y) g fuel
              labels _ labels1 hfill x y hchanged
            have hpath := labelThisLoop_paths E W H (E s0.x s0.y) g s0 fuel
              labels _ labels1 hfill
              (by intro d hd
                  rw [List.mem_singleton] at hd
                  subst hd
                  exact Or.inl rfl)
              (by intro a b hab
                  exfalso
                  have := (hr a b).2
                  omega)
              x y hv
            refine ⟨s0, hSL s0 (List.mem_cons_self _ _), ?_⟩
            refine NPath_mono W H _ _ ?_ _ _ hpath
            intro e he
            exact ⟨by rw [he.1, hv], by rw [he.2, hE]⟩
        exact ih labels1 (g + 1) res h
          (fun s hsm => hSL s (List.mem_cons_of_mem _ hsm)) hr1 hpaths1
    · rw [if_neg hs0] at h
      exact ih labels g res h
        (fun s hsm => hSL s (List.mem_cons_of_mem _ hsm)) hr hpaths

/-! ## Helper lemmas: from label paths to BFS reachability -/

/-- Surgery on an equal-elevation, equal-label path: walking from a low-edge
seed to a `NO_FLOW` cell, the last flow-carrying cell on the path is itself a
low-edge seed, and the `NO_FLOW` suffix is a chain of BFS pushes — so the end
cell is reachable in the gradient passes' expansion graph from the low-edge
queue. -/
theorem path_to_reaches (F L E : Grid) (noDataF W H : Int)
    (hnd : ∀ x y, inGrid W H x y → F x y ≠ noDataF)
    (P : GCell → Prop) (lab e : Int)
    (hP : ∀ d, P d → L d.x d.y = lab ∧ E d.x d.y = e) :
    ∀ a c, NPath W H P a c →
      a ∈ lowEdges F E noDataF W H →
      F c.x c.y = NO_FLOW →
      Reaches F L W H (lowEdges F E noDataF W H) c := by
  intro a c hp
  induction hp with
  | refl h =>
    intro ha hflow
    exact absurd hflow (mem_lowEdges_elim F E noDataF W H _ ha).2.2
  | tail b c hab hbc hc ih =>
    intro ha hflow
    have hain := (mem_lowEdges_elim F E noDataF W H a ha).1
    have hbin : inGrid W H b.x b.y := NPath_last_inGrid W H P a b hab hain
    have hPb := NPath_last W H P a b hab
    obtain ⟨n, hn, hceq, hcin⟩ := (mem_allNbrsIn W H b.x b.y c).mp hbc
    have hcx : c.x = b.x + dx n := by rw [hceq]
    have hcy : c.y = b.y + dy n := by rw [hceq]
    have hcingrid : inGrid W H c.x c.y := by rw [hcx, hcy]; exact hcin
    have hcpush : c ∈ pushList F L W H b.x b.y := by
      refine (mem_pushList F L W H b.x b.y c).mpr ⟨n, hn, hceq, hcin, ?_, ?_⟩
      · rw [← hcx, ← hcy, (hP c hc).1, (hP b hPb).1]
      · rw [← hcx, ← hcy]; exact hflow
    by_cases hFb : F b.x b.y = NO_FLOW
    · exact Reaches.step b c (ih ha hFb) hcpush
    · have hbl : b ∈ lowEdges F E noDataF W H := by
        refine mem_lowEdges_intro F E noDataF W H b hbin
          (hnd b.x b.y hbin) hFb ⟨n, hn, hcin, ?_, ?_, ?_⟩
        · rw [← hcx, ← hcy]; exact hnd c.x c.y hcingrid
        · rw [← hcx, ← hcy]; exact hflow
        · rw [← hcx, ← hcy, (hP c hc).2, (hP b hPb).2]
      exact Reaches.step b c (Reaches.base b hbl) hcpush

/-- Values after the toward pass: every cell keeps its pre-pass value or
carries an assigned positive value. -/
theorem towardLoop_vals (F L : Grid) (W H : Int) (m0 : Grid) (fh : Int → Int)
    (hpos0 : ∀ x y, 0 ≤ fh (L x y) + m0 x y) :
    ∀ (fuel : Nat) (mask : Grid) (q : List GCell) (loops : Int)
      (res : Grid × (Int → Int)),
      gradLoop F L W H towardAssign towardFhUpd fuel mask fh q loops =
        some res →
      1 ≤ loops →
      (∀ x y, mask x y = m0 x y ∨ 0 < mask x y) →
      ∀ x y, res.1 x y = m0 x y ∨ 0 < res.1 x y := by
  intro fuel
  induction fuel with
  | zero =>
    intro mask q loops res h hl hev x y
    cases q with
    | nil => exact absurd h (by simp [gradLoop])
    | cons c q1 =>
      cases q1 with
      | nil =>
        simp only [gradLoop, Option.some.injEq] at h
        rw [← h]; exact hev x y
      | cons d rest => exact absurd h (by simp [gradLoop])
  | succ n ih =>
    intro mask q loops res h hl hev x y
    cases q with
    | nil => exact absurd h (by simp [gradLoop])
    | cons c q1 =>
      cases q1 with
      | nil =>
        simp only [gradLoop, Option.some.injEq] at h
        rw [← h]; exact hev x y
      | cons d rest =>
        rw [gradLoop] at h
        by_cases h1 : c.x = -1
        · rw [if_pos h1] at h
          exact ih _ _ _ res h (by omega) hev x y
        · rw [if_neg h1] at h
          by_cases h2 : 0 < mask c.x c.y
          · rw [if_pos h2] at h
            exact ih _ _ _ res h hl hev x y
          · rw [if_neg h2] at h
            have hmc : mask c.x c.y = m0 c.x c.y := by
              rcases hev c.x c.y with hh | hh
              · exact hh
              · exact absurd hh h2
            have hvpos : 0 < towardAssign fh loops (L c.x c.y)
                (mask c.x c.y) := by
              unfold towardAssign
              rw [hmc]
              have := hpos0 c.x c.y
              split
              · omega
              · omega
            refine ih _ _ _ res h hl ?_ x y
            intro a b
            by_cases hab : a = c.x ∧ b = c.y
            · obtain ⟨rfl, rfl⟩ := hab
              rw [upd_self]
              exact Or.inr hvpos
            · rw [upd_ne _ _ _ _ _ _ hab]
              exact hev a b

/-- Unfolding of a completed driver run with a nonempty low-edge queue into
its three successive stages. -/
theorem resolve_elim (E F : Grid) (noDataF W H : Int) (fuel : Nat)
    (r : FlatResult) (hlow : lowEdges F E noDataF W H ≠ [])
    (h : resolve_flats_barnes E F noDataF W H fuel = some r) :
    ∃ (p : Grid × Int) (q : Grid × (Int → Int)) (t : Grid × (Int → Int)),
      labelStage F E noDataF W H fuel = some p ∧
      BuildAwayGradient F p.1 W H fuel zeroGrid (fun _ => 0)
        ((highEdges F E noDataF W H).filter fun c => p.1 c.x c.y ≠ 0) =
          some q ∧
      BuildTowardsCombinedGradient F p.1 W H fuel q.1 q.2
        (lowEdges F E noDataF W H) = some t ∧
      r = ⟨t.1, p.1, t.2, p.2, -1⟩ := by
  unfold resolve_flats_barnes at h
  rw [if_neg hlow] at h
  unfold awayStage at h
  cases hp : labelStage F E noDataF W H fuel with
  | none => rw [hp] at h; exact absurd h (by simp)
  | some p =>
    rw [hp] at h
    simp only [Option.some_bind] at h
    cases hq : BuildAwayGradient F p.1 W H fuel zeroGrid (fun _ => 0)
        ((highEdges F E noDataF W H).filter fun c => p.1 c.x c.y ≠ 0) with
    | none => rw [hq] at h; exact absurd h (by simp)
    | some q =>
      rw [hq] at h
      simp only [Option.map_some', Option.some_bind] at h
      cases ht : BuildTowardsCombinedGradient F p.1 W H fuel q.1 q.2
          (lowEdges F E noDataF W H) with
      | none => rw [ht] at h; exact absurd h (by simp)
      | some t =>
        rw [ht] at h
        simp only [Option.map_some', Option.some.injEq] at h
        exact ⟨p, q, t, rfl, hq, ht, h.symm⟩

/-- Unfolding of a completed `awayStage` into its two stages. -/
theorem awayStage_elim (E F : Grid) (noDataF W H : Int) (fuel : Nat)
    (res : Grid × Grid × Int × (Int → Int))
    (h : awayStage F E noDataF W H fuel = some res) :
    ∃ (p : Grid × Int) (q : Grid × (Int → Int)),
      labelStage F E noDataF W H fuel = some p ∧
      BuildAwayGradient F p.1 W H fuel zeroGrid (fun _ => 0)
        ((highEdges F E noDataF W H).filter fun c => p.1 c.x c.y ≠ 0) =
          some q ∧
      res = (p.1, q.1, p.2, q.2) := by
  unfold awayStage at h
  cases hp : labelStage F E noDataF W H fuel with
  | none => rw [hp] at h; exact absurd h (by simp)
  | some p =>
    rw [hp] at h
    simp only [Option.some_bind] at h
    cases hq : BuildAwayGradient F p.1 W H fuel zeroGrid (fun _ => 0)
        ((highEdges F E noDataF W H).filter fun c => p.1 c.x c.y ≠ 0) with
    | none => rw [hq] at h; exact absurd h (by simp)
    | some q =>
      rw [hq] at h
      simp only [Option.map_some', Option.some.injEq] at h
      exact ⟨p, q, rfl, hq, h.symm⟩

/-- The final `flat_height` of a label is either untouched (its initial
value) or witnessed exactly by some assigned cell of that label. -/
theorem awayLoop_fh_witness (F L : Grid) (W H : Int) :
    ∀ (fuel : Nat) (mask : Grid) (fh : Int → Int) (q : List GCell)
      (loops : Int) (res : Grid × (Int → Int)),
      gradLoop F L W H awayAssign awayFhUpd fuel mask fh q loops = some res →
      1 ≤ loops →
      (∀ lab, fh lab = 0 ∨ ∃ x y, L x y = lab ∧ 0 < mask x y ∧
        mask x y = fh lab) →
      ∀ lab, res.2 lab = 0 ∨ ∃ x y, L x y = lab ∧ 0 < res.1 x y ∧
        res.1 x y = res.2 lab := by
  intro fuel
  induction fuel with
  | zero =>
    intro mask fh q loops res h hl hw lab
    cases q with
    | nil => exact absurd h (by simp [gradLoop])
    | cons c q1 =>
      cases q1 with
      | nil =>
        simp only [gradLoop, Option.some.injEq] at h
        rw [← h]; exact hw lab
      | cons d rest => exact absurd h (by simp [gradLoop])
  | succ n ih =>
    intro mask fh q loops res h hl hw lab
    cases q with
    | nil => exact absurd h (by simp [gradLoop])
    | cons c q1 =>
      cases q1 with
      | nil =>
        simp only [gradLoop, Option.some.injEq] at h
        rw [← h]; exact hw lab
      | cons d rest =>
        rw [gradLoop] at h
        by_cases h1 : c.x = -1
        · rw [if_pos h1] at h
          exact ih _ _ _ _ res h (by omega) hw lab
        · rw [if_neg h1] at h
          by_cases h2 : 0 < mask c.x c.y
          · rw [if_pos h2] at h
            exact ih _ _ _ _ res h hl hw lab
          · rw [if_neg h2] at h
            refine ih _ _ _ _ res h hl ?_ lab
            intro lab1
            simp only [awayAssign, awayFhUpd]
            by_cases hlab : lab1 = L c.x c.y
            · subst hlab
              refine Or.inr ⟨c.x, c.y, rfl, ?_, ?_⟩
              · rw [upd_self]; omega
              · rw [upd_self, updF_self]
            · rw [updF_ne _ _ _ _ hlab]
              rcases hw lab1 with h0 | ⟨a, b, hL1, hpos1, hval1⟩
              · exact Or.inl h0
              · refine Or.inr ⟨a, b, hL1, ?_, ?_⟩
                · rw [upd_ne]
                  · exact hpos1
                  · rintro ⟨rfl, rfl⟩; exact h2 hpos1
                · rw [upd_ne]
                  · exact hval1
                  · rintro ⟨rfl, rfl⟩; exact h2 hpos1

/-! ## Claim C2 -/

/-- C2 counterexample: on the S2 grid, the cell `(1,1)` is itself a (pruned)
high-edge seed — its minimum hop count from the high-edge set is `0`, as
witnessed by `AwayReach … 0` — yet `BuildAwayGradient` assigns it mask `1`,
so the mask does not equal the minimum number of hops. -/
theorem C2_counterexample :
    Option.elim (awayStage S2F S2E (-2) 5 5 1000) False (fun res =>
      AwayReach S2F res.1 5 5
        ((highEdges S2F S2E (-2) 5 5).filter fun c => res.1 c.x c.y ≠ 0) 0
        ⟨1, 1⟩ ∧
      res.2.1 1 1 = 1 ∧ (1 : Int) ≠ 0) := by
  obtain ⟨res, hres⟩ : ∃ r, awayStage S2F S2E (-2) 5 5 1000 = some r :=
    ⟨_, rfl⟩
  rw [hres]
  simp only [Option.elim]
  refine ⟨?_, ?_, by norm_num⟩
  · show (⟨1, 1⟩ : GCell) ∈ _
    have hb : (awayStage S2F S2E (-2) 5 5 1000).elim false (fun res =>
        decide ((⟨1, 1⟩ : GCell) ∈ (highEdges S2F S2E (-2) 5 5).filter
          fun c => res.1 c.x c.y ≠ 0)) = true := by rfl
    rw [hres] at hb
    simp only [Option.elim] at hb
    exact of_decide_eq_true hb
  · have hb : (awayStage S2F S2E (-2) 5 5 1000).elim (0 : Int)
        (fun res => res.2.1 1 1) = 1 := by rfl
    rw [hres] at hb
    simp only [Option.elim] at hb
    exact hb

/-- C2 (amended): after `BuildAwayGradient` as invoked by the driver, a
cell's mask is positive iff the cell is reachable from the pruned high-edge
seed set through in-grid, same-label, `NO_FLOW` cells, and the mask then
equals **one plus** the minimum number of such hops (a seed carries value 1
at hop distance 0); `flat_height[ℓ]` is `0` if no cell of flat `ℓ` was
reached and otherwise is exactly the maximum mask value — one plus the
maximum hop distance — attained on `ℓ`. -/
theorem C2_away_distance (E F : Grid) (noDataF W H : Int) (fuel : Nat)
    (res : Grid × Grid × Int × (Int → Int))
    (hA : awayStage F E noDataF W H fuel = some res) :
    (∀ x y, 0 < res.2.1 x y ↔ ∃ n : Nat, AwayReach F res.1 W H
      ((highEdges F E noDataF W H).filter fun c => res.1 c.x c.y ≠ 0) n
      ⟨x, y⟩) ∧
    (∀ x y, 0 < res.2.1 x y → AwayReach F res.1 W H
      ((highEdges F E noDataF W H).filter fun c => res.1 c.x c.y ≠ 0)
      (res.2.1 x y - 1).toNat ⟨x, y⟩) ∧
    (∀ x y, ∀ n : Nat, AwayReach F res.1 W H
      ((highEdges F E noDataF W H).filter fun c => res.1 c.x c.y ≠ 0) n
      ⟨x, y⟩ → 0 < res.2.1 x y ∧ res.2.1 x y ≤ (n : Int) + 1) ∧
    (∀ x y, 0 < res.2.1 x y → res.2.1 x y ≤ res.2.2.2 (res.1 x y)) ∧
    (∀ lab, res.2.2.2 lab = 0 ∨ ∃ x y, res.1 x y = lab ∧
      0 < res.2.1 x y ∧ res.2.1 x y = res.2.2.2 lab) := by
  obtain ⟨p, q, hp, hq, hpq⟩ := awayStage_elim E F noDataF W H fuel res hA
  subst hpq
  dsimp only
  unfold BuildAwayGradient at hq
  have hhighgrid : ∀ d ∈ (highEdges F E noDataF W H).filter
      (fun c => p.1 c.x c.y ≠ 0), d.x ≠ -1 := by
    intro d hd
    rw [List.mem_filter] at hd
    have := (mem_highEdges_elim F E noDataF W H d hd.1).1.1
    omega
  obtain ⟨AK1, AK2, AK3, AK4⟩ := awayLoop_zones F p.1 W H
    ((highEdges F E noDataF W H).filter fun c => p.1 c.x c.y ≠ 0) fuel
    zeroGrid (fun _ => 0)
    ((highEdges F E noDataF W H).filter fun c => p.1 c.x c.y ≠ 0) [] 1 q
    hq (le_refl 1) hhighgrid (by simp)
    (fun x y hps => absurd hps (by norm_num [zeroGrid]))
    (fun d hd _ => Or.inl ⟨hd, rfl⟩) (by simp)
  obtain ⟨hfh_nn, hAinv⟩ := awayLoop_inv F p.1 W H fuel zeroGrid (fun _ => 0)
    _ 1 q hq (le_refl 1) (fun lab => ⟨le_refl 0, by norm_num⟩)
    (fun x y => ⟨le_refl 0, by norm_num [zeroGrid],
      fun hp0 => absurd hp0 (by norm_num [zeroGrid])⟩)
  have hupper : ∀ (n : Nat) (x y : Int), AwayReach F p.1 W H
      ((highEdges F E noDataF W H).filter fun c => p.1 c.x c.y ≠ 0) n
      ⟨x, y⟩ → 0 < q.1 x y ∧ q.1 x y ≤ (n : Int) + 1 := by
    intro n
    induction n with
    | zero =>
      intro x y hr
      have hmem : (⟨x, y⟩ : GCell) ∈ (highEdges F E noDataF W H).filter
          (fun c => p.1 c.x c.y ≠ 0) := hr
      have h1 : q.1 x y = 1 := AK1 _ hmem (by norm_num [zeroGrid])
      constructor <;> omega
    | succ n ih =>
      intro x y hr
      rcases hr with hr | ⟨pp, hpp, hpush⟩
      · have := ih x y hr
        constructor
        · exact this.1
        · have hcast : ((n : Int) : Int) + 1 ≤ (((n : Nat) + 1 : Nat) : Int) + 1 := by
            push_cast; omega
          omega
      · have hp1 : 0 < q.1 pp.x pp.y ∧ q.1 pp.x pp.y ≤ (n : Int) + 1 := by
          refine ih pp.x pp.y ?_
          cases pp; exact hpp
        have hLip := AK4 pp.x pp.y (by norm_num [zeroGrid]) hp1.1 ⟨x, y⟩
          hpush
        have hL1 : 0 < q.1 x y := hLip.1
        have hL2 : q.1 x y ≤ q.1 pp.x pp.y + 1 := hLip.2
        constructor
        · exact hL1
        · push_cast
          omega
  have hlower : ∀ (k : Nat) (x y : Int), (q.1 x y).toNat ≤ k →
      0 < q.1 x y → AwayReach F p.1 W H
        ((highEdges F E noDataF W H).filter fun c => p.1 c.x c.y ≠ 0)
        (q.1 x y - 1).toNat ⟨x, y⟩ := by
    intro k
    induction k with
    | zero => intro x y hk hpos; exfalso; omega
    | succ k ih =>
      intro x y hk hpos
      rcases AK3 x y (by norm_num [zeroGrid]) hpos with ⟨hmem, hval⟩ |
        ⟨nb, hpush, hnpos, hval⟩
      · have hv : q.1 x y = 1 := hval
        have hidx : (q.1 x y - 1).toNat = 0 := by omega
        rw [hidx]
        exact hmem
      · have hv : q.1 x y = q.1 nb.x nb.y + 1 := hval
        have hr := ih nb.x nb.y (by omega) hnpos
        have hstep : AwayReach F p.1 W H
            ((highEdges F E noDataF W H).filter fun c => p.1 c.x c.y ≠ 0)
            ((q.1 nb.x nb.y - 1).toNat + 1) ⟨x, y⟩ := by
          refine Or.inr ⟨nb, ?_, hpush⟩
          cases nb
          exact hr
        have hidx : (q.1 x y - 1).toNat = (q.1 nb.x nb.y - 1).toNat + 1 := by
          omega
        rw [hidx]
        exact hstep
  refine ⟨?_, ?_, fun x y n hr => hupper n x y hr, ?_, ?_⟩
  · intro x y
    constructor
    · intro hpos
      exact ⟨(q.1 x y - 1).toNat, hlower (q.1 x y).toNat x y (le_refl _) hpos⟩
    · rintro ⟨n, hr⟩
      exact (hupper n x y hr).1
  · intro x y hpos
    exact hlower (q.1 x y).toNat x y (le_refl _) hpos
  · intro x y hpos
    exact (hAinv x y).2 hpos
  · exact awayLoop_fh_witness F p.1 W H fuel zeroGrid (fun _ => 0) _ 1 q hq
      (le_refl 1) (fun lab => Or.inl rfl)

/-- Witness for C2's amended theorem at the S2 grid. -/
theorem C2_witness :
    Option.elim (awayStage S2F S2E (-2) 5 5 1000) False (fun res =>
      (∀ x y, 0 < res.2.1 x y ↔ ∃ n : Nat, AwayReach S2F res.1 5 5
        ((highEdges S2F S2E (-2) 5 5).filter fun c => res.1 c.x c.y ≠ 0) n
        ⟨x, y⟩) ∧
      (∀ x y, 0 < res.2.1 x y → AwayReach S2F res.1 5 5
        ((highEdges S2F S2E (-2) 5 5).filter fun c => res.1 c.x c.y ≠ 0)
        (res.2.1 x y - 1).toNat ⟨x, y⟩) ∧
      (∀ x y, ∀ n : Nat, AwayReach S2F res.1 5 5
        ((highEdges S2F S2E (-2) 5 5).filter fun c => res.1 c.x c.y ≠ 0) n
        ⟨x, y⟩ → 0 < res.2.1 x y ∧ res.2.1 x y ≤ (n : Int) + 1) ∧
      (∀ x y, 0 < res.2.1 x y → res.2.1 x y ≤ res.2.2.2 (res.1 x y)) ∧
      (∀ lab, res.2.2.2 lab = 0 ∨ ∃ x y, res.1 x y = lab ∧
        0 < res.2.1 x y ∧ res.2.1 x y = res.2.2.2 lab)) := by
  obtain ⟨res, hres⟩ : ∃ r, awayStage S2F S2E (-2) 5 5 1000 = some r :=
    ⟨_, rfl⟩
  rw [hres]
  exact C2_away_distance S2E S2F (-2) 5 5 1000 res hres

/-! ## Claim C3 -/

/-- C3: in `BuildTowardsCombinedGradient`'s queue loop (which runs on the
globally sign-flipped mask), a dequeued non-marker cell whose value is not
yet positive is assigned `(flat_height[L(c)] + M(c)) + 2·loops` when
`M(c) ≠ 0` and `2·loops` when `M(c) = 0`, and its same-label `NO_FLOW`
neighbours are pushed. -/
theorem C3_toward_assignment (F L : Grid) (W H : Int) (fuel : Nat)
    (mask : Grid) (fh : Int → Int) (c d : GCell) (rest : List GCell)
    (loops : Int) (hm : c.x ≠ -1) (hpos : ¬ 0 < mask c.x c.y) :
    gradLoop F L W H towardAssign towardFhUpd (fuel + 1) mask fh (c :: d :: rest)
        loops =
      gradLoop F L W H towardAssign towardFhUpd fuel
        (upd mask c.x c.y
          (if mask c.x c.y ≠ 0 then (fh (L c.x c.y) + mask c.x c.y) + 2 * loops
            else 2 * loops))
        fh ((d :: rest) ++ pushList F L W H c.x c.y) loops := by
  rw [gradLoop, if_neg hm, if_neg hpos]
  rfl

/-- Witness for C3 at a concrete state: the cell `(0,0)` with flipped away
value `-1`, `flat_height` value `5`, wavefront `1`. -/
theorem C3_witness :
    gradLoop zeroGrid zeroGrid 3 3 towardAssign towardFhUpd 8 (fun _ _ => -1)
        (fun _ => 5) (⟨0, 0⟩ :: ⟨-1, -1⟩ :: []) 1 =
      gradLoop zeroGrid zeroGrid 3 3 towardAssign towardFhUpd 7
        (upd (fun _ _ => -1) 0 0
          (if (fun _ _ => (-1 : Int)) (0 : Int) (0 : Int) ≠ 0 then
              ((fun _ => (5 : Int)) (zeroGrid 0 0) +
                (fun _ _ => (-1 : Int)) 0 0) + 2 * 1
            else 2 * 1))
        (fun _ => 5) ((⟨-1, -1⟩ :: []) ++ pushList zeroGrid zeroGrid 3 3 0 0) 1 :=
  C3_toward_assignment zeroGrid zeroGrid 3 3 7 (fun _ _ => -1) (fun _ => 5)
    ⟨0, 0⟩ ⟨-1, -1⟩ [] 1 (by decide) (by norm_num)

/-! ## Claim C4 -/

/-- C4 counterexample: on the S2 grid the labeling phase performs one flood
fill, so `group_number` finishes at `2` while only one distinct label (the
value `1`) was assigned — the number of distinct labels assigned is *not*
the final `group_number`. -/
theorem C4_counterexample :
    ((labelStage S2F S2E (-2) 5 5 1000).map fun p =>
        ((distinctLabelCount p.1 5 5 : Int), p.2)) = some (1, 2) ∧
      (1 : Int) ≠ 2 := by
  exact ⟨by rfl, by decide⟩

/-- C4 (amended): the labels assigned by the labeling phase are exactly the
values `1 .. group_number − 1`; the `flat_height` vector is allocated with
length `group_number`, so the number of distinct labels assigned is
`group_number − 1`, one less than that index bound. -/
theorem C4_labels_range (F E : Grid) (noDataF W H : Int) (fuel : Nat)
    (p : Grid × Int) (h : labelStage F E noDataF W H fuel = some p) :
    1 ≤ p.2 ∧ ∀ v : Int, (∃ x y, p.1 x y = v ∧ 0 < v) ↔ (1 ≤ v ∧ v < p.2) := by
  unfold labelStage at h
  have hg := labelFlats_g_mono E W H fuel _ zeroGrid 1 p h
  have hrange := labelFlats_range E W H fuel _ zeroGrid 1 p h
    (fun x y => by simp [zeroGrid])
  refine ⟨hg, fun v => ⟨?_, ?_⟩⟩
  · rintro ⟨x, y, hv, hpos⟩
    have := hrange x y
    omega
  · rintro ⟨h1, h2⟩
    obtain ⟨x, y, hxy⟩ := labelFlats_surj E W H fuel _ zeroGrid 1 p h
      (le_refl 1) (fun j hj1 hj2 => absurd hj2 (by omega)) v h1 h2
    exact ⟨x, y, hxy, by omega⟩

/-- Witness for C4's amended theorem at the S2 grid. -/
theorem C4_witness :
    Option.elim (labelStage S2F S2E (-2) 5 5 1000) False
      (fun p => 1 ≤ p.2 ∧
        ∀ v : Int, (∃ x y, p.1 x y = v ∧ 0 < v) ↔ (1 ≤ v ∧ v < p.2)) := by
  obtain ⟨p, hp⟩ : ∃ p, labelStage S2F S2E (-2) 5 5 1000 = some p := ⟨_, rfl⟩
  rw [hp]
  exact C4_labels_range S2F S2E (-2) 5 5 1000 p hp

/-! ## Claim C5 -/

/-- C5: for a double-typed elevation, the perturbation step the code applies
(`nextafterf`, line 571) moves `1.0` by one *float* ULP (`2⁻²³`), not by one
double ULP (`2⁻⁵²`) as the claim requires — the two disagree even at a single
step. -/
theorem C5_nextafterf_wrong_for_double :
    alter_dem_bump_double 1 1 = 1 + 1 / 2 ^ 23 ∧
    spec_bump_double 1 1 = 1 + 1 / 2 ^ 52 ∧
    alter_dem_bump_double 1 1 ≠ spec_bump_double 1 1 := by
  refine ⟨?_, ?_, ?_⟩ <;>
    norm_num [alter_dem_bump_double, spec_bump_double, nextafterf_up,
      nextafter_double_up]

/-! ## Claim C6 -/

/-- C6: after a completed driver run (on a flowdir raster without NoData
cells), every cell's final mask is nonnegative — no cell retains the
negative value written by the toward pass's sign flip (being integers, all
masks are `0` or `≥ 1`) — and cells outside every labeled flat have mask
`0`. -/
theorem C6_mask_nonneg (E F : Grid) (noDataF W H : Int) (fuel : Nat)
    (r : FlatResult)
    (hnd : ∀ x y, inGrid W H x y → F x y ≠ noDataF)
    (hres : resolve_flats_barnes E F noDataF W H fuel = some r) :
    ∀ x y, 0 ≤ r.flat_mask x y ∧ (r.labels x y = 0 → r.flat_mask x y = 0) := by
  by_cases hlow : lowEdges F E noDataF W H = []
  · unfold resolve_flats_barnes at hres
    rw [if_pos hlow, Option.some.injEq] at hres
    rw [← hres]
    intro x y
    exact ⟨le_refl 0, fun _ => rfl⟩
  · obtain ⟨p, q, t, hp, hq, ht, hr⟩ :=
      resolve_elim E F noDataF W H fuel r hlow hres
    have hp' : labelFlats E W H fuel (lowEdges F E noDataF W H) zeroGrid 1 =
        some p := hp
    have hrange := labelFlats_range E W H fuel _ zeroGrid 1 p hp'
      (fun x y => by norm_num [zeroGrid])
    have hseeds := labelFlats_seeds_labeled E W H fuel _ zeroGrid 1 p hp'
      (le_refl 1) (fun x y => le_refl 0)
    have hpaths := labelFlats_paths E W H fuel (lowEdges F E noDataF W H) _
      zeroGrid 1 p hp' (fun s hs => hs) (fun x y => by norm_num [zeroGrid])
      (fun x y hpos => absurd hpos (by norm_num [zeroGrid]))
    unfold BuildAwayGradient at hq
    obtain ⟨hfh_nn, hA⟩ := awayLoop_inv F p.1 W H fuel zeroGrid (fun _ => 0)
      _ 1 q hq (le_refl 1) (fun lab => ⟨le_refl 0, by norm_num⟩)
      (fun x y => ⟨le_refl 0, by norm_num [zeroGrid],
        fun hp0 => absurd hp0 (by norm_num [zeroGrid])⟩)
    have hpush1 : ∀ x y, (F x y = NO_FLOW ∧ 0 < p.1 x y) →
        ∀ d ∈ pushList F p.1 W H x y,
          F d.x d.y = NO_FLOW ∧ 0 < p.1 d.x d.y := by
      intro x y hxy d hd
      obtain ⟨n, hn, rfl, hin, hL, hF⟩ := (mem_pushList F p.1 W H x y d).mp hd
      refine ⟨hF, ?_⟩
      show 0 < p.1 (x + dx n) (y + dy n)
      rw [hL]; exact hxy.2
    have hqueue1 : ∀ c ∈ ((highEdges F E noDataF W H).filter
        fun c => p.1 c.x c.y ≠ 0) ++ [(⟨-1, -1⟩ : GCell)],
        c.x = -1 ∨ (F c.x c.y = NO_FLOW ∧ 0 < p.1 c.x c.y) := by
      intro c hc
      rcases List.mem_append.mp hc with hc | hc
      · rw [List.mem_filter] at hc
        refine Or.inr ⟨(mem_highEdges_elim F E noDataF W H c hc.1).2.2, ?_⟩
        have hne : p.1 c.x c.y ≠ 0 := by simpa using hc.2
        have := hrange c.x c.y
        omega
      · rw [List.mem_singleton] at hc; subst hc; exact Or.inl rfl
    have htouch := gradLoop_mask_inv F p.1 W H awayAssign awayFhUpd
      (fun x y => F x y = NO_FLOW ∧ 0 < p.1 x y) hpush1 fuel zeroGrid
      (fun _ => 0) _ 1 q hq hqueue1 (fun x y h0 => absurd rfl h0)
    unfold BuildTowardsCombinedGradient at ht
    have hpos0 : ∀ x y, 0 ≤ q.2 (p.1 x y) + (fun x y => -(q.1 x y)) x y := by
      intro x y
      have h1 := hA x y
      have h2 := hfh_nn (p.1 x y)
      dsimp only
      by_cases h0 : 0 < q.1 x y
      · have := h1.2 h0; omega
      · have := h1.1; omega
    have hlowgrid : ∀ d ∈ lowEdges F E noDataF W H, d.x ≠ -1 := by
      intro d hd
      have := (mem_lowEdges_elim F E noDataF W H d hd).1.1
      omega
    obtain ⟨K1, K2, K3, K4⟩ := towardLoop_zones F p.1 W H
      (lowEdges F E noDataF W H) (fun x y => -(q.1 x y)) q.2 hpos0 fuel
      (fun x y => -(q.1 x y)) (lowEdges F E noDataF W H) [] 1 t ht
      (le_refl 1) hlowgrid (by simp) (fun x y => Or.inl rfl)
      (fun d hd _ => Or.inl hd) (by simp)
    have hm0neg : ∀ x y : Int, ¬ 0 < -(q.1 x y) := by
      intro x y
      have := (hA x y).1
      omega
    have hreach : ∀ c, Reaches F p.1 W H (lowEdges F E noDataF W H) c →
        0 < t.1 c.x c.y := by
      intro c hr2
      induction hr2 with
      | base c h =>
        have hv := K1 c h (hm0neg c.x c.y)
        rw [hv]
        have := tdelta_nonneg q.2 (fun x y => -(q.1 x y)) p.1 hpos0 c
        omega
      | step c d hc hd ih =>
        exact K4 c.x c.y (hm0neg c.x c.y) ih d hd
    have hvals := towardLoop_vals F p.1 W H (fun x y => -(q.1 x y)) q.2
      hpos0 fuel _ _ 1 t ht (le_refl 1) (fun x y => Or.inl rfl)
    have hpushlab : ∀ x y, 0 < p.1 x y →
        ∀ d ∈ pushList F p.1 W H x y, 0 < p.1 d.x d.y := by
      intro x y hxy d hd
      obtain ⟨n, hn, rfl, hin, hL, hF⟩ := (mem_pushList F p.1 W H x y d).mp hd
      show 0 < p.1 (x + dx n) (y + dy n)
      rw [hL]; exact hxy
    have hlabq : ∀ c ∈ lowEdges F E noDataF W H ++ [(⟨-1, -1⟩ : GCell)],
        c.x = -1 ∨ 0 < p.1 c.x c.y := by
      intro c hc
      rcases List.mem_append.mp hc with hc | hc
      · exact Or.inr (hseeds c hc)
      · rw [List.mem_singleton] at hc; subst hc; exact Or.inl rfl
    have honlylab := gradLoop_mask_inv F p.1 W H towardAssign towardFhUpd
      (fun x y => 0 < p.1 x y) hpushlab fuel (fun x y => -(q.1 x y)) q.2 _ 1
      t ht hlabq
      (by intro x y h0
          have hA0 : q.1 x y ≠ 0 := by
            intro hc0
            apply h0
            show -(q.1 x y) = 0
            rw [hc0]
            norm_num
          exact (htouch x y hA0).2)
    have hcomplete : ∀ x y, q.1 x y ≠ 0 → 0 < t.1 x y := by
      intro x y hA0
      obtain ⟨hF, hLpos⟩ := htouch x y hA0
      obtain ⟨s, hsmem, hpath⟩ := hpaths x y hLpos
      exact hreach ⟨x, y⟩ (path_to_reaches F p.1 E noDataF W H hnd _
        (p.1 x y) (E x y) (fun d hd => hd) s ⟨x, y⟩ hpath hsmem hF)
    rw [hr]
    intro x y
    dsimp only
    constructor
    · rcases hvals x y with hv | hv
      · have hv' : t.1 x y = -(q.1 x y) := hv
        by_cases hA0 : q.1 x y = 0
        · rw [hv', hA0]; norm_num
        · have := hcomplete x y hA0
          omega
      · omega
    · intro hL0
      by_contra hM0
      have hM1 : t.1 x y ≠ 0 := hM0
      have := honlylab x y hM1
      omega

/-- Witness for C6 at the S2 grid. -/
theorem C6_witness :
    Option.elim (resolve_flats_barnes S2E S2F (-2) 5 5 10000) False
      (fun r => ∀ x y, 0 ≤ r.flat_mask x y ∧
        (r.labels x y = 0 → r.flat_mask x y = 0)) := by
  obtain ⟨r, hrr⟩ : ∃ r, resolve_flats_barnes S2E S2F (-2) 5 5 10000 =
      some r := ⟨_, rfl⟩
  rw [hrr]
  exact C6_mask_nonneg S2E S2F (-2) 5 5 10000 r
    (by intro x y _
        unfold S2F NO_FLOW
        split <;> norm_num) hrr

/-! ## Claim C1 -/

/-- C1: after a completed driver run (flowdir raster without NoData, every
flow-carrying cell having a strictly lower in-grid neighbour), every labeled
cell other than the low-edge seeds either has an 8-neighbour in the same
flat with strictly smaller final mask, or an in-grid 8-neighbour outside its
flat at strictly lower elevation — the final mask drains every resolvable
flat strictly monotonically. -/
theorem C1_strict_monotone_drainage (E F : Grid) (noDataF W H : Int)
    (fuel : Nat) (r : FlatResult)
    (hnd : ∀ c ∈ gridCells W H, F c.x c.y ≠ noDataF)
    (hgen : ∀ c ∈ gridCells W H, F c.x c.y ≠ NO_FLOW →
      ∃ n ∈ dirList, inGrid W H (c.x + dx n) (c.y + dy n) ∧
        E (c.x + dx n) (c.y + dy n) < E c.x c.y)
    (hres : resolve_flats_barnes E F noDataF W H fuel = some r) :
    ∀ x y, inGrid W H x y → 0 < r.labels x y →
      (⟨x, y⟩ : GCell) ∉ lowEdges F E noDataF W H →
      (∃ n ∈ dirList, r.labels (x + dx n) (y + dy n) = r.labels x y ∧
        r.flat_mask (x + dx n) (y + dy n) < r.flat_mask x y) ∨
      (∃ n ∈ dirList, inGrid W H (x + dx n) (y + dy n) ∧
        E (x + dx n) (y + dy n) < E x y ∧
        r.labels (x + dx n) (y + dy n) ≠ r.labels x y) := by
  have hnd' : ∀ x y, inGrid W H x y → F x y ≠ noDataF := by
    intro x y hin
    exact hnd ⟨x, y⟩ ((mem_gridCells W H ⟨x, y⟩).mpr hin)
  by_cases hlow : lowEdges F E noDataF W H = []
  · unfold resolve_flats_barnes at hres
    rw [if_pos hlow, Option.some.injEq] at hres
    rw [← hres]
    intro x y _ hpos
    exact absurd hpos (by norm_num [zeroGrid])
  · obtain ⟨p, q, t, hp, hq, ht, hr⟩ :=
      resolve_elim E F noDataF W H fuel r hlow hres
    have hp' : labelFlats E W H fuel (lowEdges F E noDataF W H) zeroGrid 1 =
        some p := hp
    have hrange := labelFlats_range E W H fuel _ zeroGrid 1 p hp'
      (fun x y => by norm_num [zeroGrid])
    have hpaths := labelFlats_paths E W H fuel (lowEdges F E noDataF W H) _
      zeroGrid 1 p hp' (fun s hs => hs) (fun x y => by norm_num [zeroGrid])
      (fun x y hpos => absurd hpos (by norm_num [zeroGrid]))
    have hconsel := labelFlats_label_elev E W H fuel _ zeroGrid 1 p hp'
      (fun x y => by norm_num [zeroGrid])
      (fun x y a b hpos => absurd hpos (by norm_num [zeroGrid]))
    unfold BuildAwayGradient at hq
    obtain ⟨hfh_nn, hA⟩ := awayLoop_inv F p.1 W H fuel zeroGrid (fun _ => 0)
      _ 1 q hq (le_refl 1) (fun lab => ⟨le_refl 0, by norm_num⟩)
      (fun x y => ⟨le_refl 0, by norm_num [zeroGrid],
        fun hp0 => absurd hp0 (by norm_num [zeroGrid])⟩)
    have hhighgrid : ∀ d ∈ (highEdges F E noDataF W H).filter
        (fun c => p.1 c.x c.y ≠ 0), d.x ≠ -1 := by
      intro d hd
      rw [List.mem_filter] at hd
      have := (mem_highEdges_elim F E noDataF W H d hd.1).1.1
      omega
    obtain ⟨AK1, AK2, AK3, AK4⟩ := awayLoop_zones F p.1 W H
      ((highEdges F E noDataF W H).filter fun c => p.1 c.x c.y ≠ 0) fuel
      zeroGrid (fun _ => 0)
      ((highEdges F E noDataF W H).filter fun c => p.1 c.x c.y ≠ 0) [] 1 q
      hq (le_refl 1) hhighgrid (by simp)
      (fun x y hps => absurd hps (by norm_num [zeroGrid]))
      (fun d hd _ => Or.inl ⟨hd, rfl⟩) (by simp)
    unfold BuildTowardsCombinedGradient at ht
    have hpos0 : ∀ x y, 0 ≤ q.2 (p.1 x y) + (fun x y => -(q.1 x y)) x y := by
      intro x y
      have h1 := hA x y
      have h2 := hfh_nn (p.1 x y)
      dsimp only
      by_cases h0 : 0 < q.1 x y
      · have := h1.2 h0; omega
      · have := h1.1; omega
    have hlowgrid : ∀ d ∈ lowEdges F E noDataF W H, d.x ≠ -1 := by
      intro d hd
      have := (mem_lowEdges_elim F E noDataF W H d hd).1.1
      omega
    obtain ⟨K1, K2, K3, K4⟩ := towardLoop_zones F p.1 W H
      (lowEdges F E noDataF W H) (fun x y => -(q.1 x y)) q.2 hpos0 fuel
      (fun x y => -(q.1 x y)) (lowEdges F E noDataF W H) [] 1 t ht
      (le_refl 1) hlowgrid (by simp) (fun x y => Or.inl rfl)
      (fun d hd _ => Or.inl hd) (by simp)
    have hm0neg : ∀ x y : Int, ¬ 0 < -(q.1 x y) := by
      intro x y
      have := (hA x y).1
      omega
    have hreach : ∀ c, Reaches F p.1 W H (lowEdges F E noDataF W H) c →
        0 < t.1 c.x c.y := by
      intro c hr2
      induction hr2 with
      | base c h =>
        have hv := K1 c h (hm0neg c.x c.y)
        rw [hv]
        have := tdelta_nonneg q.2 (fun x y => -(q.1 x y)) p.1 hpos0 c
        omega
      | step c d hc hd ih =>
        exact K4 c.x c.y (hm0neg c.x c.y) ih d hd
    rw [hr]
    intro x y hin hLpos hnotlow
    dsimp only at hLpos ⊢
    by_cases hF : F x y = NO_FLOW
    · -- NO_FLOW labeled cell: toward-assigned; use the toward provenance
      obtain ⟨s, hsmem, hpath⟩ := hpaths x y hLpos
      have hM : 0 < t.1 x y :=
        hreach ⟨x, y⟩ (path_to_reaches F p.1 E noDataF W H hnd' _
          (p.1 x y) (E x y) (fun d hd => hd) s ⟨x, y⟩ hpath hsmem hF)
      rcases K3 x y (hm0neg x y) hM with hS | ⟨nb, hpush, hMn, hMc⟩
      · exact absurd hS hnotlow
      · obtain ⟨k, hk, hceq, hkin, hkL, hkF⟩ :=
          (mem_pushList F p.1 W H nb.x nb.y ⟨x, y⟩).mp hpush
        have hxk : x = nb.x + dx k ∧ y = nb.y + dy k := by
          constructor
          · exact congrArg GCell.x hceq
          · exact congrArg GCell.y hceq
        obtain ⟨k9, hk9, hdx9, hdy9⟩ := dir_symm k hk
        have hx9 : x + dx k9 = nb.x := by omega
        have hy9 : y + dy k9 = nb.y := by omega
        have hLeq : p.1 x y = p.1 nb.x nb.y := by
          rw [hxk.1, hxk.2]; exact hkL
        left
        refine ⟨k9, hk9, ?_, ?_⟩
        · rw [hx9, hy9, hLeq]
        · rw [hx9, hy9]
          -- quantitative step: tdelta(nb) ≤ tdelta(c) + 1
          have hdel : tdelta q.2 (fun x y => -(q.1 x y)) p.1 nb ≤
              tdelta q.2 (fun x y => -(q.1 x y)) p.1 ⟨x, y⟩ + 1 := by
            unfold tdelta
            dsimp only
            have hAnb := (hA nb.x nb.y).1
            have hAc := (hA x y).1
            by_cases h1 : q.1 nb.x nb.y = 0
            · rw [if_neg (by omega)]
              split
              · have := hpos0 x y; dsimp only at this; omega
              · omega
            · have hLip := AK4 nb.x nb.y
                (by norm_num [zeroGrid]) (by omega) ⟨x, y⟩ hpush
              dsimp only at hLip
              rw [if_pos (by omega), if_pos (by omega)]
              rw [hLeq]
              omega
          have hMc' : t.1 x y = t.1 nb.x nb.y -
              tdelta q.2 (fun x y => -(q.1 x y)) p.1 nb + 2 +
              tdelta q.2 (fun x y => -(q.1 x y)) p.1 ⟨x, y⟩ := hMc
          omega
    · -- flow-carrying labeled cell: strictly lower neighbour outside the flat
      obtain ⟨n, hn, hnin, hnlt⟩ :=
        hgen ⟨x, y⟩ ((mem_gridCells W H ⟨x, y⟩).mpr hin) hF
      have hnin' : inGrid W H (x + dx n) (y + dy n) := hnin
      have hnlt' : E (x + dx n) (y + dy n) < E x y := hnlt
      right
      refine ⟨n, hn, hnin', hnlt', ?_⟩
      intro hsame
      have := hconsel (x + dx n) (y + dy n) x y
        (by rw [hsame]; exact hLpos) hsame
      omega

/-- Witness for C1 at the S2 grid: the flat interior cell `(2,2)` (labeled,
`NO_FLOW`, not a low edge) has a same-flat neighbour with smaller mask or a
lower outside neighbour. -/
theorem C1_witness :
    Option.elim (resolve_flats_barnes S2E S2F (-2) 5 5 10000) False
      (fun r =>
        (∃ n ∈ dirList, r.labels (2 + dx n) (2 + dy n) = r.labels 2 2 ∧
          r.flat_mask (2 + dx n) (2 + dy n) < r.flat_mask 2 2) ∨
        (∃ n ∈ dirList, inGrid 5 5 (2 + dx n) (2 + dy n) ∧
          S2E (2 + dx n) (2 + dy n) < S2E 2 2 ∧
          r.labels (2 + dx n) (2 + dy n) ≠ r.labels 2 2)) := by
  obtain ⟨r, hrr⟩ : ∃ r, resolve_flats_barnes S2E S2F (-2) 5 5 10000 =
      some r := ⟨_, rfl⟩
  rw [hrr]
  refine C1_strict_monotone_drainage S2E S2F (-2) 5 5 10000 r (by decide)
    (by decide) hrr 2 2 (by decide) ?_ (by decide)
  have h2 : (resolve_flats_barnes S2E S2F (-2) 5 5 10000).elim (0 : Int)
      (fun v => v.labels 2 2) = 1 := by rfl
  rw [hrr] at h2
  simp only [Option.elim] at h2
  rw [h2]
  norm_num

/-! ## Claim C7 -/

/-- C7: if the low-edge queue is empty after edge scanning, the driver
returns immediately with labels identically `0`, mask identically `0` and the
mask's NoData sentinel `-1` — no labeling and no gradient pass runs. -/
theorem C7_low_edges_empty (E F : Grid) (noDataF W H : Int) (fuel : Nat)
    (h : lowEdges F E noDataF W H = []) :
    ∃ r, resolve_flats_barnes E F noDataF W H fuel = some r ∧
      (∀ x y, r.flat_mask x y = 0) ∧ (∀ x y, r.labels x y = 0) ∧
      r.maskNoData = -1 := by
  refine ⟨⟨zeroGrid, zeroGrid, fun _ => 0, 1, -1⟩, ?_, fun x y => rfl,
    fun x y => rfl, rfl⟩
  unfold resolve_flats_barnes
  rw [if_pos h]

/-- Witness for C7: a 3×3 raster in which every cell has a flow direction, so
both edge queues are empty. -/
theorem C7_witness :
    lowEdges S1F S1E (-2) 3 3 = [] ∧
    ∃ r, resolve_flats_barnes S1E S1F (-2) 3 3 100 = some r ∧
      (∀ x y, r.flat_mask x y = 0) ∧ (∀ x y, r.labels x y = 0) ∧
      r.maskNoData = -1 :=
  ⟨by rfl, C7_low_edges_empty S1E S1F (-2) 3 3 100 (by rfl)⟩

/-! ## Claim C8 -/

/-- C8: in `d8_masked_FlowDir` the candidate state `(minimum_elevation,
flowdir)` changes at neighbour `n` exactly when `n` is in the same flat and
its mask is strictly below the current best, or ties the current best while
the current candidate is positive and even and `n` is odd; consequently in
scenario S5 (equal minimal masks at diagonal index 2 and cardinal index 3)
the cell receives flow direction `3`. -/
theorem C8_tie_break :
    (∀ (fm L : Grid) (x y : Int) (st : Int × Int) (n : Nat),
        flowDirStep fm L x y st n ≠ st ↔
          (L (x + dx n) (y + dy n) = L x y ∧
            (fm (x + dx n) (y + dy n) < st.1 ∨
              (fm (x + dx n) (y + dy n) = st.1 ∧ 0 < st.2 ∧ st.2 % 2 = 0 ∧
                (n : Int) % 2 = 1)))) ∧
    d8_masked_FlowDir S5mask S5labels 1 1 = 3 := by
  constructor
  · intro fm L x y st n
    by_cases h1 : L (x + dx n) (y + dy n) = L x y
    · by_cases h2 : fm (x + dx n) (y + dy n) < st.1 ∨
          (fm (x + dx n) (y + dy n) = st.1 ∧ 0 < st.2 ∧ st.2 % 2 = 0 ∧
            (n : Int) % 2 = 1)
      · constructor
        · intro _; exact ⟨h1, h2⟩
        · intro _
          unfold flowDirStep
          rw [if_neg (not_not_intro h1), if_pos h2]
          intro hEq
          rw [Prod.ext_iff] at hEq
          rcases h2 with hlt | ⟨_, _, hev, hodd⟩
          · exact absurd hEq.1 (ne_of_lt hlt)
          · rw [← hEq.2] at hev; omega
      · constructor
        · intro hne
          exfalso
          apply hne
          unfold flowDirStep
          rw [if_neg (not_not_intro h1), if_neg h2]
        · rintro ⟨_, h2'⟩; exact absurd h2' h2
    · constructor
      · intro hne
        exfalso
        apply hne
        unfold flowDirStep
        rw [if_pos h1]
      · rintro ⟨h1', _⟩; exact absurd h1' h1
  · rfl

/-! ## Claim C9 -/

/-- C9: after the labeling phase, every cell's label (hence in particular the
label of every cell ever dequeued by either gradient pass) lies in
`[0, group_number)`, so every `flat_height[labels(x,y)]` access of the
gradient passes is within the vector's length `group_number`; both initial
BFS queues (the pruned high-edge queue with its marker, and the low-edge
queue with its marker) consist of the marker and cells whose labels are in
range, and BFS pushes preserve the dequeued cell's label. -/
theorem C9_flat_height_in_bounds (F E : Grid) (noDataF W H : Int) (fuel : Nat)
    (p : Grid × Int) (h : labelStage F E noDataF W H fuel = some p) :
    (∀ x y, 0 ≤ p.1 x y ∧ p.1 x y < p.2) ∧
    (∀ c ∈ ((highEdges F E noDataF W H).filter fun c => p.1 c.x c.y ≠ 0) ++
        [(⟨-1, -1⟩ : GCell)],
      c.x = -1 ∨ (0 ≤ p.1 c.x c.y ∧ p.1 c.x c.y < p.2)) ∧
    (∀ c ∈ lowEdges F E noDataF W H ++ [(⟨-1, -1⟩ : GCell)],
      c.x = -1 ∨ (0 ≤ p.1 c.x c.y ∧ p.1 c.x c.y < p.2)) ∧
    (∀ (L : Grid) (x y : Int), ∀ c ∈ pushList F L W H x y,
      L c.x c.y = L x y) := by
  unfold labelStage at h
  have hrange := labelFlats_range E W H fuel _ zeroGrid 1 p h
    (fun x y => by simp [zeroGrid])
  refine ⟨hrange, fun c _ => Or.inr (hrange c.x c.y),
    fun c _ => Or.inr (hrange c.x c.y), ?_⟩
  intro L x y c hc
  unfold pushList at hc
  rw [List.mem_filterMap] at hc
  obtain ⟨n, _, hn⟩ := hc
  split at hn
  · next hcond => rw [Option.some.injEq] at hn; rw [← hn]; exact hcond.2.1
  · exact absurd hn (by simp)

/-- Witness for C9 at the S2 grid. -/
theorem C9_witness :
    Option.elim (labelStage S2F S2E (-2) 5 5 1000) False
      (fun p => (∀ x y, 0 ≤ p.1 x y ∧ p.1 x y < p.2) ∧
        (∀ c ∈ ((highEdges S2F S2E (-2) 5 5).filter fun c => p.1 c.x c.y ≠ 0) ++
            [(⟨-1, -1⟩ : GCell)],
          c.x = -1 ∨ (0 ≤ p.1 c.x c.y ∧ p.1 c.x c.y < p.2)) ∧
        (∀ c ∈ lowEdges S2F S2E (-2) 5 5 ++ [(⟨-1, -1⟩ : GCell)],
          c.x = -1 ∨ (0 ≤ p.1 c.x c.y ∧ p.1 c.x c.y < p.2)) ∧
        (∀ (L : Grid) (x y : Int), ∀ c ∈ pushList S2F L 5 5 x y,
          L c.x c.y = L x y)) := by
  obtain ⟨p, hp⟩ : ∃ p, labelStage S2F S2E (-2) 5 5 1000 = some p := ⟨_, rfl⟩
  rw [hp]
  exact C9_flat_height_in_bounds S2F S2E (-2) 5 5 1000 p hp

/-! ## Claim C10 -/

/-- C10: labels are write-once — from any point of the labeling phase on, a
cell whose label is already positive keeps exactly that label to the end of
the phase (flood fills discard already-labeled cells and the driver skips
already-labeled seeds). -/
theorem C10_write_once (E : Grid) (W H : Int) (fuel : Nat)
    (seeds : List GCell) (labels : Grid) (g : Int) (res : Grid × Int)
    (h : labelFlats E W H fuel seeds labels g = some res)
    (x y : Int) (hpos : 0 < labels x y) : res.1 x y = labels x y :=
  labelFlats_preserve_pos E W H fuel seeds labels g res h x y hpos

/-- Witness for C10: running the labeling phase of the S2 grid from a state
where cell `(1,1)` is pre-labeled `7` leaves that label untouched. -/
theorem C10_witness :
    Option.elim (labelFlats S2E 5 5 1000 (lowEdges S2F S2E (-2) 5 5)
        (upd zeroGrid 1 1 7) 8) False
      (fun res => res.1 1 1 = upd zeroGrid 1 1 7 1 1) := by
  obtain ⟨res, hres⟩ : ∃ r, labelFlats S2E 5 5 1000 (lowEdges S2F S2E (-2) 5 5)
      (upd zeroGrid 1 1 7) 8 = some r := ⟨_, rfl⟩
  rw [hres]
  exact C10_write_once S2E 5 5 1000 _ _ 8 res hres 1 1
    (by rw [upd_self]; norm_num)

end RD
